import Mathlib

/-!
Verification of the recursive action scanner's dependency-resolution core.

The development shallowly embeds the JavaScript sources:
  * `src/lib/utils.mjs`   — `ACTION_NAME_REGEX`, `actionSteps`
  * `src/lib/actions.mjs` — `ActionCache`, `Action` (identity, manifest cache,
    recursive `scanDependencies`)
  * `src/lib/scanner.mjs` — `RecursiveActionScanner` (orchestrator and report)

JavaScript objects become Lean structures; the mutable static `ActionCache`
and per-node mutable fields become an explicit `ScanState` threaded through
every operation; the GitHub manifest fetch becomes an explicit collaborator
function `Identity → Option Manifest` (the code's `getActionYaml` catches all
fetch/parse errors internally and degrades to `null`, so an `Option` result is
the faithful contract); calls to the collaborator are recorded in a fetch log
so fetch counts are observable.  Machine integers do not occur (all counts are
small naturals).  All definitions are executable.
-/

set_option maxRecDepth 4096

namespace RAS

/-- Identity of an action reference: the four captured groups of
`ACTION_NAME_REGEX` (`org`, `action`, `ref`, `subPath`), i.e. the fields
`owner`, `repo`, `ref`, `subPath` of the `Action` constructor in
`src/lib/actions.mjs`. -/
structure Identity where
  owner : String
  repo : String
  ref : String
  subPath : String
deriving DecidableEq, Repr

/-- One step of a manifest; only its optional `uses` field is consulted by the
scanner (`step?.uses` in `scanDependencies`). -/
structure Step where
  uses : Option String
deriving DecidableEq, Repr

/-- One job of a workflow-shaped manifest: an optional `steps` sequence
(`if (job.steps)` in `actionSteps`). -/
structure Job where
  steps : Option (List Step)
deriving DecidableEq, Repr

/-- The `runs` object of a composite-shaped manifest: an optional `steps`
sequence (`yamlContent.runs?.steps`). -/
structure Runs where
  steps : Option (List Step)
deriving DecidableEq, Repr

/-- Manifest document as consumed by `actionSteps` in `src/lib/utils.mjs`:
an optional `jobs` map (entries in insertion order) and an optional `runs`
object.  Any other YAML structure is observationally equivalent to the
manifest with neither field (zero steps). -/
structure Manifest where
  jobs : Option (List (String × Job))
  runs : Option Runs
deriving DecidableEq, Repr

/-- Embedding of the generator `actionSteps` (src/lib/utils.mjs): the steps of
every job (in job order) followed by the composite `runs.steps`.  The code
yields `[jobKey, job, step, stepIdx]` tuples; the scanner destructures them and
reads only `step`, so the embedding returns the steps themselves. -/
def actionSteps (m : Manifest) : List Step :=
  (match m.jobs with
   | some jobs => jobs.flatMap (fun jk => match jk.2.steps with
       | some ss => ss
       | none => [])
   | none => []) ++
  (match m.runs with
   | some r => match r.steps with
     | some ss => ss
     | none => []
   | none => [])

/-- Line terminators of JavaScript regexes: `.` matches any character except
these four. -/
def isLineTerm (c : Char) : Bool :=
  c = '\n' || c = '\r' || c.toNat = 0x2028 || c.toNat = 0x2029

/-- The `(?<ref>.+)$` group of `ACTION_NAME_REGEX`: nonempty and free of line
terminators. -/
def refOk (v : List Char) : Bool :=
  !v.isEmpty && v.all (fun c => !isLineTerm c)

/-- Matching of the tail `(?:\/(?<subPath>[^@]+))?@(?<ref>.+)$` of
`ACTION_NAME_REGEX` against the input remaining after the `action` group.
Returns `(subPath, ref)`; `subPath = []` means the optional group is absent.
The two alternatives are distinguished by the first character, and greedy
`[^@]+` makes `subPath` exactly the run up to the first `@`. -/
def tryTail (u : List Char) : Option (List Char × List Char) :=
  match u with
  | '/' :: u2 =>
    let sub := u2.takeWhile (· ≠ '@')
    (match u2.dropWhile (· ≠ '@') with
     | '@' :: v => if !sub.isEmpty && refOk v then some (sub, v) else none
     | _ => none)
  | '@' :: v => if refOk v then some ([], v) else none
  | _ => none

/-- Backtracking loop for the greedy `(?<action>[^\/]+)` group: the candidate
action (held reversed in `actRev`) starts maximal and is shortened one
character at a time, each released character being prepended to the remaining
input `u`, until `tryTail` accepts the remainder.  Returns
`(action, subPath, ref)`. -/
def goAction : List Char → List Char → Option (List Char × List Char × List Char)
  | [], _ => none
  | c :: actRev, u =>
    match tryTail u with
    | some (sub, v) => some ((c :: actRev).reverse, sub, v)
    | none => goAction actRev (c :: u)

/-- Embedding of `usesString.match(ACTION_NAME_REGEX)` followed by the group
extraction of `Action.fromUsesString`
(`ACTION_NAME_REGEX = /^(?<org>[^\/]+)\/(?<action>[^\/]+)(?:\/(?<subPath>[^@]+))?@(?<ref>.+)$/`,
src/lib/utils.mjs line 4):
`org` is the text before the first `/` (greedy `[^\/]+` admits no other
choice); the `action`/`subPath`/`ref` groups are found by `goAction`.
An absent `subPath` group becomes `''` (`subPath || ''` in
`fromUsesString`). -/
def matchActionName (raw : String) : Option Identity :=
  let cs := raw.toList
  match cs.takeWhile (· ≠ '/'), cs.dropWhile (· ≠ '/') with
  | org@(_ :: _), '/' :: t =>
    (match goAction (t.takeWhile (· ≠ '/')).reverse (t.dropWhile (· ≠ '/')) with
     | some (act, sub, v) =>
       some ⟨String.mk org, String.mk act, String.mk v, String.mk sub⟩
     | none => none)
  | _, _ => none

/-- Display form `Action.fullName` (src/lib/actions.mjs lines 42-44):
`owner/repo@ref`, with `/subPath` appended after the revision when `subPath`
is truthy (nonempty). -/
def Identity.fullName (a : Identity) : String :=
  a.owner ++ "/" ++ a.repo ++ "@" ++ a.ref ++
    (if a.subPath ≠ "" then "/" ++ a.subPath else "")

/-- URL form `Action.url` (src/lib/actions.mjs lines 46-48). -/
def Identity.url (a : Identity) : String :=
  "https://github.com/" ++ a.owner ++ "/" ++ a.repo ++ "/tree/" ++ a.ref ++
    (if a.subPath ≠ "" then "/" ++ a.subPath else "")

/-- Node of the dependency graph: the mutable fields of an `Action` object
(src/lib/actions.mjs lines 30-40).  `dependencies` models the JS
`Set` of node references as the insertion-ordered duplicate-free list of their
identities (the cache keeps one node per identity, so a node reference and its
identity determine each other); `scanned` is the expansion flag;
`actionYaml` models `this._actionYaml`: `none` is JS `undefined`
(never fetched), `some none` is the cached `null` ("not found"),
`some (some m)` a cached manifest. -/
structure Action where
  owner : String
  repo : String
  ref : String
  subPath : String
  dependencies : List Identity
  scanned : Bool
  actionYaml : Option (Option Manifest)
deriving DecidableEq, Repr

/-- Identity carried by a node. -/
def Action.ident (a : Action) : Identity :=
  ⟨a.owner, a.repo, a.ref, a.subPath⟩

/-- Construction of a fresh `Action` (the constructor body before
`ActionCache.register`). -/
def Action.mk0 (owner repo ref subPath : String) : Action :=
  ⟨owner, repo, ref, subPath, [], false, none⟩

/-- Whole mutable state of a scan: the static array `ActionCache.actions`
plus an instrumentation log of the identities for which the manifest
collaborator was actually invoked (one entry per invocation). -/
structure ScanState where
  actions : List Action
  fetchLog : List Identity
deriving DecidableEq, Repr

/-- State at process start: empty static cache, nothing fetched. -/
def initState : ScanState := ⟨[], []⟩

/-- A node "reference" is its index in `ActionCache.actions`; reference
equality of JS objects is equality of indices. -/
def ScanState.node? (st : ScanState) (i : Nat) : Option Action :=
  st.actions.get? i

/-- The `scanned` flag of node `i` (`false` out of bounds; unreachable). -/
def ScanState.getScanned (st : ScanState) (i : Nat) : Bool :=
  ((st.node? i).map Action.scanned).getD false

/-- The dependency set of node `i` as `Array.from(this.dependencies)`. -/
def ScanState.depsOf (st : ScanState) (i : Nat) : List Identity :=
  ((st.node? i).map Action.dependencies).getD []

/-- The identity of node `i`. -/
def ScanState.identOf (st : ScanState) (i : Nat) : Identity :=
  ((st.node? i).map Action.ident).getD ⟨"", "", "", ""⟩

/-- Update of node `i` in place. -/
def ScanState.modifyNode (st : ScanState) (i : Nat) (f : Action → Action) :
    ScanState :=
  match st.actions.get? i with
  | some a => { st with actions := st.actions.set i (f a) }
  | none => st

/-- Embedding of `this.scanned = true` on node `i`. -/
def ScanState.setScanned (st : ScanState) (i : Nat) : ScanState :=
  st.modifyNode i (fun a => { a with scanned := true })

/-- Embedding of `this.dependencies.add(dep)` on node `i`: a JS `Set` ignores
an element already present and appends a new one in insertion order. -/
def ScanState.addDep (st : ScanState) (i : Nat) (d : Identity) : ScanState :=
  st.modifyNode i (fun a =>
    if d ∈ a.dependencies then a
    else { a with dependencies := a.dependencies ++ [d] })

namespace ActionCache

/-- Embedding of `ActionCache.find` (src/lib/actions.mjs lines 10-22): index
of the first cached node whose four identity fields all match. -/
def find (st : ScanState) (owner repo ref subPath : String) : Option Nat :=
  st.actions.findIdx? (fun a =>
    a.owner = owner && a.repo = repo && a.ref = ref && a.subPath = subPath)

/-- Embedding of `ActionCache.findOrCreate` (lines 23-26) together with the
`Action` constructor's self-registration (`ActionCache.register(this)`,
a push onto the static array): the found index, or the index of a freshly
appended unexpanded node. -/
def findOrCreate (st : ScanState) (owner repo ref subPath : String) :
    Nat × ScanState :=
  match find st owner repo ref subPath with
  | some i => (i, st)
  | none =>
    (st.actions.length,
     { st with actions := st.actions ++ [Action.mk0 owner repo ref subPath] })

end ActionCache

namespace Action

/-- Embedding of `Action.fromUsesString` (src/lib/actions.mjs lines 50-58):
regex match, throw on failure, then `findOrCreate(org, action, ref,
subPath || '')`. -/
def fromUsesString (st : ScanState) (usesString : String) :
    Except String (Nat × ScanState) :=
  match matchActionName usesString with
  | none => .error ("Invalid action reference: " ++ usesString)
  | some id => .ok (ActionCache.findOrCreate st id.owner id.repo id.ref id.subPath)

/-- Embedding of `Action.getActionYaml` (src/lib/actions.mjs lines 60-92) for
node `i`: return the cached `_actionYaml` when defined, else invoke the
manifest collaborator (which internally tries `action.yml`/`action.yaml` and
catches all fetch errors, yielding `none` for the code's `null`), record the
invocation, and cache the outcome — including the `null` outcome. -/
def getActionYaml (fetcher : Identity → Option Manifest) (st : ScanState)
    (i : Nat) : Option Manifest × ScanState :=
  match st.node? i with
  | none => (none, st)
  | some a =>
    match a.actionYaml with
    | some v => (v, st)
    | none =>
      let v := fetcher a.ident
      (v, { st with
              actions := st.actions.set i { a with actionYaml := some v },
              fetchLog := st.fetchLog ++ [a.ident] })

/-- Body of the `try` block of one `uses` step of `scanDependencies`
(src/lib/actions.mjs lines 106-114): resolve the dependency
(`fromUsesString` may throw), add it to `this.dependencies`, recursively
expand it (`recur`, the expansion at `currentDepth + 1`), and add every
returned transitive dependency as well.  Only `fromUsesString` can fail;
everything after it is total, as in the source, where all deeper failure
paths are caught inside the callees. -/
def stepTry (recur : ScanState → Nat → List Identity × ScanState)
    (st : ScanState) (i : Nat) (u : String) : Except String ScanState :=
  match fromUsesString st u with
  | .error e => .error e
  | .ok (j, st1) =>
    let st2 := st1.addDep i (st1.identOf j)
    let rec1 := recur st2 j
    .ok (rec1.1.foldl (fun s d => s.addDep i d) rec1.2)

/-- The `for (const [jobKey, job, step, stepIdx] of actionSteps(actionYaml))`
loop of `scanDependencies` (src/lib/actions.mjs lines 105-117): each step's
body runs inside a `try`/`catch` (`stepTry`); a thrown error only skips that
step's remaining work, keeping whatever state the step had already produced,
and the loop continues with the next step. -/
def scanStepsLoop (recur : ScanState → Nat → List Identity × ScanState) :
    ScanState → Nat → List Step → ScanState
  | st, _, [] => st
  | st, i, step :: rest =>
    let st' :=
      -- `if (step?.uses)`: absent or empty (falsy) `uses` skips the body
      match step.uses with
      | none => st
      | some u =>
        if u = "" then st
        else
          match stepTry recur st i u with
          | .ok st2 => st2
          | .error _ => st
    scanStepsLoop recur st' i rest

/-- One expansion level of `scanDependencies`: the body of the source
function below its `currentDepth >= maxDepth` cut-off, with `prev` the
expansion available to children (one level less of depth budget).  `cd` is
the source's `currentDepth`, passed along exactly as in the source
(`currentDepth + 1` for children); the remaining budget is carried by the
fuel of `scanFuel`. -/
def scanLevel (fetcher : Identity → Option Manifest)
    (prev : Nat → ScanState → Nat → List Identity × ScanState)
    (cd : Nat) (st : ScanState) (i : Nat) : List Identity × ScanState :=
  if st.getScanned i then (st.depsOf i, st)
  else
    let st1 := st.setScanned i
    let fetched := getActionYaml fetcher st1 i
    match fetched.1 with
    | none => (fetched.2.depsOf i, fetched.2)
    | some m =>
      let st3 := scanStepsLoop (prev (cd + 1)) fetched.2 i (actionSteps m)
      (st3.depsOf i, st3)

/-- Depth-budgeted expansion: `scanFuel fetcher fuel cd st i` is
`scanDependencies` with `fuel = maxDepth - currentDepth` made an explicit
structural argument (so that the function reduces definitionally).  Budget
`0` is the source's `currentDepth >= maxDepth` early return. -/
def scanFuel (fetcher : Identity → Option Manifest) :
    Nat → Nat → ScanState → Nat → List Identity × ScanState
  | 0 => fun _ st i => (st.depsOf i, st)
  | fuel + 1 => scanLevel fetcher (scanFuel fetcher fuel)

/-- Embedding of `Action.scanDependencies` (src/lib/actions.mjs lines 94-120)
for node `i`, returning `Array.from(this.dependencies)` and the state after
expansion.  The source recursion is on `currentDepth`, bounded by `maxDepth`;
here the remaining budget `maxDepth - currentDepth` is the structural
argument.  `scanDependencies_unfold` below proves that this definition
satisfies the source's recursion equation verbatim. -/
def scanDependencies (fetcher : Identity → Option Manifest)
    (maxDepth currentDepth : Nat) (st : ScanState) (i : Nat) :
    List Identity × ScanState :=
  scanFuel fetcher (maxDepth - currentDepth) currentDepth st i

end Action

/-- JS truthiness of a possibly-absent string (`!result.error` etc.):
`undefined` and `''` are falsy. -/
def isTruthyOptStr : Option String → Bool
  | none => false
  | some s => s ≠ ""

/-- Embedding of `JS Map.set`: updating an existing key keeps its position
(first-insertion order), a new key is appended. -/
def upsert {β : Type} : List (String × β) → String → β → List (String × β)
  | [], k, v => [(k, v)]
  | (k', v') :: rest, k, v =>
    if k' = k then (k, v) :: rest else (k', v') :: upsert rest k v

/-- Embedding of `JS Map.has` / membership in a `Set` of strings. -/
def hasKey {β : Type} (xs : List (String × β)) (k : String) : Bool :=
  xs.any (fun p => p.1 = k)

/-- Embedding of `Set.add` for strings (insertion-ordered, duplicate-free). -/
def insertNew (xs : List String) (s : String) : List String :=
  if s ∈ xs then xs else xs ++ [s]

namespace RecursiveActionScanner

/-- Embedding of the constructor line `this.maxDepth = options.maxDepth || 5`
(src/lib/scanner.mjs line 7): `undefined` and the falsy `0` both yield the
default `5`. -/
def scannerMaxDepth (optMaxDepth : Option Nat) : Nat :=
  match optMaxDepth with
  | none => 5
  | some n => if n = 0 then 5 else n

/-- One value of the `results` map built by `scanActionList`: the root's
resolved node (`null` on failure), the dependency list returned by
`scanDependencies`, the caught error message, and `totalDependencies`. -/
structure RootResult where
  action : Option Identity
  dependencies : List Identity
  error : Option String
  totalDependencies : Nat
deriving DecidableEq, Repr

/-- One entry of `report.rootActions` (src/lib/scanner.mjs lines 75-88).
The per-dependency objects `{fullName, url, owner, repo, ref, subPath}` are
determined by the dependency's identity, so they are kept as identities. -/
structure RootEntry where
  reference : String
  success : Bool
  error : Option String
  totalDependencies : Nat
  dependencies : List Identity
deriving DecidableEq, Repr

/-- One value of the `uniqueActions` map of `getAllUniqueActions`; the key is
the node's `fullName`. -/
structure UniqueEntry where
  ident : Identity
  isRootAction : Bool
deriving DecidableEq, Repr

/-- The report of `generateReport` (src/lib/scanner.mjs lines 64-92), minus
the wall-clock `timestamp` field, which no claim concerns. -/
structure Report where
  totalRootActions : Nat
  totalUniqueActions : Nat
  maxDepthUsed : Nat
  rootActions : List RootEntry
  allUniqueActions : List (String × UniqueEntry)
deriving DecidableEq, Repr

/-- The `for (const actionRef of actionReferences)` loop of `scanActionList`
(src/lib/scanner.mjs lines 36-59): each root is parsed and expanded inside a
`try`/`catch`; a throw (only `fromUsesString` can throw — the embedded
`scanDependencies` is total, as every failure path inside it is caught)
records a failure entry for that root only, and the loop continues. -/
def processRoots (maxDepth : Nat) (fetcher : Identity → Option Manifest) :
    List String → ScanState → List (String × RootResult) →
    List (String × RootResult) × ScanState
  | [], st, results => (results, st)
  | actionRef :: rest, st, results =>
    match Action.fromUsesString st actionRef with
    | .ok (i, st1) =>
      let r := Action.scanDependencies fetcher maxDepth 0 st1 i
      processRoots maxDepth fetcher rest r.2
        (upsert results actionRef ⟨some (r.2.identOf i), r.1, none, r.1.length⟩)
    | .error e =>
      processRoots maxDepth fetcher rest st
        (upsert results actionRef ⟨none, [], some e, 0⟩)

/-- Embedding of `countUniqueActions` (src/lib/scanner.mjs lines 95-106): the
number of distinct `fullName`s over every successful root and its
dependencies. -/
def countUniqueActions (results : List (String × RootResult)) : Nat :=
  (results.foldl (fun acc p =>
    match p.2.action with
    | some a =>
      p.2.dependencies.foldl (fun ac d => insertNew ac d.fullName)
        (insertNew acc a.fullName)
    | none => acc) []).length

/-- Embedding of `getAllUniqueActions` (src/lib/scanner.mjs lines 108-139):
a `fullName`-keyed map; each successful root is `set` unconditionally with
`isRootAction: true`, its dependencies only when the key is absent, with
`isRootAction: false`. -/
def getAllUniqueActions (results : List (String × RootResult)) :
    List (String × UniqueEntry) :=
  results.foldl (fun acc p =>
    match p.2.action with
    | some a =>
      p.2.dependencies.foldl
        (fun ac d => if hasKey ac d.fullName then ac
                     else upsert ac d.fullName ⟨d, false⟩)
        (upsert acc a.fullName ⟨a, true⟩)
    | none => acc) []

/-- Embedding of `generateReport` (src/lib/scanner.mjs lines 64-92).
`success: !result.error` is the truthiness test on the stored message. -/
def generateReport (maxDepth : Nat) (results : List (String × RootResult)) :
    Report :=
  { totalRootActions := results.length
    totalUniqueActions := countUniqueActions results
    maxDepthUsed := maxDepth
    rootActions := results.map (fun p =>
      { reference := p.1
        success := !isTruthyOptStr p.2.error
        error := p.2.error
        totalDependencies := p.2.totalDependencies
        dependencies := p.2.dependencies })
    allUniqueActions := getAllUniqueActions results }

/-- Embedding of `RecursiveActionScanner.scanActionList` (src/lib/scanner.mjs
lines 27-62): an empty reference list short-circuits to
`generateReport()` over an empty map; otherwise every root is processed and
the final report generated.  The function is total: no error escapes it. -/
def scanActionList (maxDepth : Nat) (fetcher : Identity → Option Manifest)
    (actionReferences : List String) (st : ScanState) : Report × ScanState :=
  if actionReferences.isEmpty then (generateReport maxDepth [], st)
  else
    let r := processRoots maxDepth fetcher actionReferences st []
    (generateReport maxDepth r.1, r.2)

end RecursiveActionScanner

/-! ## Basic cache facts -/

/-- The identities currently registered in the cache, in registration order. -/
def identsOf (st : ScanState) : List Identity :=
  st.actions.map Action.ident

/-- Modelled from the claim's words, for comparison with the code's
`Identity.fullName`: the claimed display form `owner/repo@revision` with
`/subPath` inserted *before* the `@` when `subPath` is non-empty. -/
def claimedDisplayForm (a : Identity) : String :=
  a.owner ++ "/" ++ a.repo ++
    (if a.subPath ≠ "" then "/" ++ a.subPath else "") ++ "@" ++ a.ref

/-! ## Concrete test fixtures -/

/-- Identity `org/a@v1`. -/
def aId : Identity := ⟨"org", "a", "v1", ""⟩

/-- Identity `org/b@v1`. -/
def bId : Identity := ⟨"org", "b", "v1", ""⟩

/-- Identity `org/c@v1`. -/
def cId : Identity := ⟨"org", "c", "v1", ""⟩

/-- Identity `org/d@v1`. -/
def dId : Identity := ⟨"org", "d", "v1", ""⟩

/-- A composite manifest whose only step is `uses: u`. -/
def soleUses (u : String) : Manifest := ⟨none, some ⟨some [⟨some u⟩]⟩⟩

/-- Collaborator for the depth scenarios: `org/a@v1`'s manifest declares
`uses: org/b@v1`; no other manifest exists. -/
def abFetcher : Identity → Option Manifest := fun id =>
  if id = aId then some (soleUses "org/b@v1") else none

/-- Collaborator for the cycle scenario: `org/a@v1` declares
`uses: org/b@v1` and `org/b@v1` declares `uses: org/a@v1`. -/
def cycFetcher : Identity → Option Manifest := fun id =>
  if id = aId then some (soleUses "org/b@v1")
  else if id = bId then some (soleUses "org/a@v1")
  else none

/-- State with the root `org/a@v1` resolved and nothing scanned yet. -/
def cycStart : ScanState :=
  (ActionCache.findOrCreate initState "org" "a" "v1" "").2

/-- State of the cycle scenario at the moment the expansion re-enters
`org/a@v1` through its own cycle: both nodes are marked expanded and both
manifests have been fetched once. -/
def cycMid : ScanState :=
  ⟨[⟨"org", "a", "v1", "", [bId], true, some (some (soleUses "org/b@v1"))⟩,
    ⟨"org", "b", "v1", "", [aId], true, some (some (soleUses "org/a@v1"))⟩],
   [aId, bId]⟩

/-- Collaborator for the two-run scenario: `org/b@v1` declares
`uses: org/c@v1`, which declares `uses: org/d@v1`. -/
def chainFetcher : Identity → Option Manifest := fun id =>
  if id = bId then some (soleUses "org/c@v1")
  else if id = cId then some (soleUses "org/d@v1")
  else none

/-- Collaborator for the shared-dependency scenario: roots `org/a@v1` and
`org/b@v1` both declare `uses: org/c@v1`; `org/c@v1` has no manifest. -/
def sharedFetcher : Identity → Option Manifest := fun id =>
  if id = aId then some (soleUses "org/c@v1")
  else if id = bId then some (soleUses "org/c@v1")
  else none

/-- Insertion into a dependency set, exactly as `ScanState.addDep` updates the
node's list: ignore a present element, append a new one. -/
def insertOnce (xs : List Identity) (d : Identity) : List Identity :=
  if d ∈ xs then xs else xs ++ [d]

/-- The identities of the parseable `uses` declarations of a step list, in
step order (the steps the expansion loop would resolve). -/
def parseSteps (steps : List Step) : List Identity :=
  steps.filterMap (fun s =>
    match s.uses with
    | none => none
    | some u => if u = "" then none else matchActionName u)

/-- The direct dependency set a manifest declares: parseable `uses`
identities, first-occurrence de-duplicated. -/
def directUses (m : Manifest) : List Identity :=
  (parseSteps (actionSteps m)).foldl insertOnce []

/-- Classification of one `results` entry of `scanActionList`: a root whose
reference does not parse carries exactly the failure record with the throw's
message; a root whose reference parses carries no error. -/
def resultOk (k : String) (v : RecursiveActionScanner.RootResult) : Prop :=
  match matchActionName k with
  | none =>
    v = ⟨none, [], some ("Invalid action reference: " ++ k), 0⟩
  | some _ => v.error = none

/-- Invariant tying the fetch log to the cache: registered identities are
pairwise distinct; a node whose `_actionYaml` is still `undefined` has never
been fetched; an unregistered identity has never been fetched; and no
identity has been fetched more than once. -/
def goodState (st : ScanState) : Prop :=
  (identsOf st).Nodup ∧
  (∀ k a, st.node? k = some a → a.actionYaml = none →
    st.fetchLog.count a.ident = 0) ∧
  (∀ id, id ∉ identsOf st → st.fetchLog.count id = 0) ∧
  (∀ id, st.fetchLog.count id ≤ 1)

/-- Modelled from the claim's words, for comparison with `matchActionName`:
the claimed shape `owner/repo[/subPath]@revision` in which `owner` and `repo`
are each a single segment containing neither `/` nor `@`, the optional
`subPath` contains no `@`, and `revision` is the entire non-empty remainder
after the `@`.  Under those constraints the decomposition is deterministic:
`owner` and `repo` extend to the first `/` or `@`, `subPath` to the first
`@`. -/
def claimShape (s : String) : Bool :=
  let cs := s.toList
  let o := cs.takeWhile (fun c => c ≠ '/' && c ≠ '@')
  match cs.dropWhile (fun c => c ≠ '/' && c ≠ '@') with
  | '/' :: t =>
    let r := t.takeWhile (fun c => c ≠ '/' && c ≠ '@')
    (match t.dropWhile (fun c => c ≠ '/' && c ≠ '@') with
     | '@' :: v => !o.isEmpty && !r.isEmpty && !v.isEmpty
     | '/' :: t2 =>
       let sp := t2.takeWhile (fun c => c ≠ '@')
       (match t2.dropWhile (fun c => c ≠ '@') with
        | '@' :: v => !o.isEmpty && !r.isEmpty && !sp.isEmpty && !v.isEmpty
        | _ => false)
     | _ => false)
  | _ => false

/-- The decompositions of a character list accepted by `ACTION_NAME_REGEX`:
`org ++ '/' ++ action [++ '/' ++ subPath] ++ '@' ++ ref` with `org` and
`action` non-empty and slash-free, `subPath` free of `@` (it may contain
`/`), and `ref` non-empty and free of line terminators. -/
def regexSplit (cs : List Char) (o r sp v : List Char) : Prop :=
  cs = o ++ '/' :: (r ++ (if sp = [] then [] else '/' :: sp) ++ '@' :: v) ∧
  o ≠ [] ∧ (∀ c ∈ o, c ≠ '/') ∧ r ≠ [] ∧ (∀ c ∈ r, c ≠ '/') ∧
  (∀ c ∈ sp, c ≠ '@') ∧ refOk v = true

namespace Action

lemma scanStepsLoop_congr {r1 r2 : ScanState → Nat → List Identity × ScanState}
    (h : ∀ st j, r1 st j = r2 st j) :
    ∀ (st : ScanState) (i : Nat) (steps : List Step),
      scanStepsLoop r1 st i steps = scanStepsLoop r2 st i steps := by
  intro st i steps
  induction steps generalizing st with
  | nil => rfl
  | cons step rest ih =>
    show scanStepsLoop r1 _ i rest = scanStepsLoop r2 _ i rest
    have hb : stepTry r1 st i = stepTry r2 st i := by
      funext u
      unfold stepTry
      rcases fromUsesString st u with _ | ⟨j, st1⟩
      · rfl
      · simp only [h]
    rw [hb]
    exact ih _

/-- The fuel-based `scanDependencies` satisfies the source's recursion
equation: return the current dependency set when the node is already
expanded or the depth budget is exhausted; otherwise mark it expanded
*before* anything else, fetch (or reuse) its manifest, and process every
step, expanding children at `currentDepth + 1`. -/
theorem scanDependencies_unfold (fetcher : Identity → Option Manifest)
    (maxDepth currentDepth : Nat) (st : ScanState) (i : Nat) :
    scanDependencies fetcher maxDepth currentDepth st i =
      if st.getScanned i = true ∨ maxDepth ≤ currentDepth then
        (st.depsOf i, st)
      else
        let st1 := st.setScanned i
        let fetched := getActionYaml fetcher st1 i
        match fetched.1 with
        | none => (fetched.2.depsOf i, fetched.2)
        | some m =>
          let st3 := scanStepsLoop
            (fun st2 j => scanDependencies fetcher maxDepth (currentDepth + 1)
              st2 j)
            fetched.2 i (actionSteps m)
          (st3.depsOf i, st3) := by
  unfold scanDependencies
  rcases Nat.lt_or_ge currentDepth maxDepth with hlt | hge
  · have hfuel : maxDepth - currentDepth = (maxDepth - (currentDepth + 1)) + 1 := by
      omega
    rw [hfuel]
    show scanLevel fetcher (scanFuel fetcher (maxDepth - (currentDepth + 1)))
        currentDepth st i = _
    unfold scanLevel
    rcases hsc : st.getScanned i with _ | _
    · rw [if_neg (by simp [hsc]), if_neg (by simp [hsc]; omega)]
    · rw [if_pos (by simp [hsc]), if_pos (Or.inl (by simp [hsc]))]
  · have hfuel : maxDepth - currentDepth = 0 := by omega
    rw [hfuel]
    rw [if_pos (Or.inr hge)]
    rfl

end Action

lemma Action.ident_mk0 (o r rf sp : String) :
    (Action.mk0 o r rf sp).ident = ⟨o, r, rf, sp⟩ := rfl

lemma ActionCache.findPred_iff (a : Action) (o r rf sp : String) :
    ((a.owner = o && a.repo = r && a.ref = rf && a.subPath = sp) = true) ↔
      a.ident = ⟨o, r, rf, sp⟩ := by
  simp [Action.ident, Identity.mk.injEq, Bool.and_eq_true, decide_eq_true_eq,
    and_assoc]

lemma ActionCache.find_eq_none_iff (st : ScanState) (o r rf sp : String) :
    ActionCache.find st o r rf sp = none ↔
      (⟨o, r, rf, sp⟩ : Identity) ∉ identsOf st := by
  unfold ActionCache.find
  rw [List.findIdx?_eq_none_iff]
  constructor
  · intro h hm
    obtain ⟨a, ha, hid⟩ := List.mem_map.mp hm
    have := h a ha
    rw [Bool.eq_false_iff] at this
    exact this ((ActionCache.findPred_iff a o r rf sp).mpr hid)
  · intro h a ha
    rw [Bool.eq_false_iff]
    intro hp
    exact h (List.mem_map.mpr ⟨a, ha, (ActionCache.findPred_iff a o r rf sp).mp hp⟩)

lemma ActionCache.find_eq_some (st : ScanState) (o r rf sp : String) (i : Nat)
    (h : ActionCache.find st o r rf sp = some i) :
    ∃ (hi : i < st.actions.length),
      (st.actions[i]).ident = ⟨o, r, rf, sp⟩ := by
  unfold ActionCache.find at h
  rw [List.findIdx?_eq_some_iff_getElem] at h
  obtain ⟨hi, hp, _⟩ := h
  exact ⟨hi, (ActionCache.findPred_iff _ o r rf sp).mp hp⟩

lemma ScanState.identOf_of_getElem (st : ScanState) (i : Nat)
    (hi : i < st.actions.length) : st.identOf i = (st.actions[i]).ident := by
  simp [ScanState.identOf, ScanState.node?, List.get?_eq_getElem?,
    List.getElem?_eq_getElem hi]

/-! ## C3 — cache lookup-or-create -/

lemma ActionCache.findOrCreate_of_find_some (st : ScanState)
    (o r rf sp : String) (i : Nat) (h : ActionCache.find st o r rf sp = some i) :
    ActionCache.findOrCreate st o r rf sp = (i, st) := by
  unfold ActionCache.findOrCreate
  rw [h]

lemma ActionCache.findOrCreate_of_find_none (st : ScanState)
    (o r rf sp : String) (h : ActionCache.find st o r rf sp = none) :
    ActionCache.findOrCreate st o r rf sp =
      (st.actions.length,
       { st with actions := st.actions ++ [Action.mk0 o r rf sp] }) := by
  unfold ActionCache.findOrCreate
  rw [h]

lemma ActionCache.find_append_fresh (st : ScanState) (o r rf sp : String)
    (h : ActionCache.find st o r rf sp = none) :
    ActionCache.find
      { st with actions := st.actions ++ [Action.mk0 o r rf sp] } o r rf sp
      = some st.actions.length := by
  unfold ActionCache.find at h ⊢
  simp only [List.findIdx?_append, h, Option.none_or]
  have h0 : List.findIdx?
      (fun a => a.owner = o && a.repo = r && a.ref = rf && a.subPath = sp)
      [Action.mk0 o r rf sp] = some 0 := by
    simp [List.findIdx?_cons, Action.mk0]
  simp [h0]

/-- C3: `ActionCache.findOrCreate` returns the node carrying the requested
four-field identity; requesting a structurally equal identity again returns
the identical node instance (same index) with the cache unchanged; an identity
not yet present yields a fresh unexpanded node (`scanned = false`, no
dependencies, no cached manifest) registered at the end of the cache; and the
cache keeps at most one node per identity (registered identities stay
duplicate-free). -/
theorem findOrCreate_resolves_uniquely (st : ScanState) (o r rf sp : String) :
    (ActionCache.findOrCreate st o r rf sp).2.identOf
        (ActionCache.findOrCreate st o r rf sp).1 = ⟨o, r, rf, sp⟩ ∧
    ActionCache.findOrCreate (ActionCache.findOrCreate st o r rf sp).2 o r rf sp
        = ActionCache.findOrCreate st o r rf sp ∧
    (ActionCache.find st o r rf sp = none →
      (ActionCache.findOrCreate st o r rf sp).1 = st.actions.length ∧
      (ActionCache.findOrCreate st o r rf sp).2.actions
          = st.actions ++ [Action.mk0 o r rf sp] ∧
      (ActionCache.findOrCreate st o r rf sp).2.node?
          (ActionCache.findOrCreate st o r rf sp).1
          = some (Action.mk0 o r rf sp)) ∧
    (∀ i, ActionCache.find st o r rf sp = some i →
      ActionCache.findOrCreate st o r rf sp = (i, st)) ∧
    ((identsOf st).Nodup →
      (identsOf (ActionCache.findOrCreate st o r rf sp).2).Nodup) := by
  rcases hf : ActionCache.find st o r rf sp with _ | i
  · have hmem := (ActionCache.find_eq_none_iff st o r rf sp).mp hf
    have hfc := ActionCache.findOrCreate_of_find_none st o r rf sp hf
    have hnode : (ActionCache.findOrCreate st o r rf sp).2.node?
        (ActionCache.findOrCreate st o r rf sp).1
        = some (Action.mk0 o r rf sp) := by
      rw [hfc]
      simp [ScanState.node?, List.get?_eq_getElem?, List.getElem?_concat_length]
    refine ⟨?_, ?_, fun _ => ⟨by rw [hfc], by rw [hfc], hnode⟩, ?_, ?_⟩
    · simp [ScanState.identOf, hnode, Action.ident_mk0]
    · have hfind2 := ActionCache.find_append_fresh st o r rf sp hf
      rw [hfc]
      exact ActionCache.findOrCreate_of_find_some _ o r rf sp _ hfind2
    · intro i hi
      exact Option.noConfusion hi
    · intro hnd
      rw [hfc]
      simp only [identsOf, List.map_append, List.map_cons, List.map_nil]
      rw [List.nodup_append]
      refine ⟨hnd, List.nodup_singleton _, ?_⟩
      intro x hx hx1
      apply hmem
      simp only [List.mem_singleton] at hx1
      obtain ⟨a, ha, hai⟩ := List.mem_map.mp hx
      subst hx1
      rw [Action.ident_mk0] at hai
      exact List.mem_map.mpr ⟨a, ha, hai⟩
  · obtain ⟨hi, hident⟩ := ActionCache.find_eq_some st o r rf sp i hf
    have hfc := ActionCache.findOrCreate_of_find_some st o r rf sp i hf
    refine ⟨?_, ?_, ?_, ?_, ?_⟩
    · rw [hfc]
      show st.identOf i = _
      rw [ScanState.identOf_of_getElem st i hi]
      exact hident
    · rw [hfc]
      exact ActionCache.findOrCreate_of_find_some st o r rf sp i hf
    · intro h
      exact Option.noConfusion h
    · intro j hj
      cases hj
      exact hfc
    · intro hnd
      rw [hfc]
      exact hnd

/-- Witness for `findOrCreate_resolves_uniquely` at a concrete cache state and
identity: the not-present branch fires on the empty cache. -/
theorem findOrCreate_resolves_uniquely_witness :
    ActionCache.find initState "actions" "checkout" "v4" "" = none ∧
    (ActionCache.findOrCreate initState "actions" "checkout" "v4" "").1 = 0 ∧
    (ActionCache.findOrCreate initState "actions" "checkout" "v4" "").2.node? 0
      = some (Action.mk0 "actions" "checkout" "v4" "") := by
  have h := findOrCreate_resolves_uniquely initState "actions" "checkout" "v4" ""
  have hf : ActionCache.find initState "actions" "checkout" "v4" "" = none := by
    rfl
  obtain ⟨-, -, h3, -, -⟩ := h
  obtain ⟨h31, h32, h33⟩ := h3 hf
  exact ⟨hf, h31, by simpa using h33⟩

/-! ## C7 — canonical display form and URL -/

/-- C7 counterexample: for the identity
`(owner="a", repo="b", subPath="c", revision="v1")` the code's display form is
`"a/b@v1/c"` — the sub-path is appended *after* the revision — whereas the
claim's display form would be `"a/b/c@v1"`; the two differ. -/
theorem fullName_subPath_placement_counterexample :
    Identity.fullName ⟨"a", "b", "v1", "c"⟩ = "a/b@v1/c" ∧
    claimedDisplayForm ⟨"a", "b", "v1", "c"⟩ = "a/b/c@v1" ∧
    Identity.fullName ⟨"a", "b", "v1", "c"⟩ ≠
      claimedDisplayForm ⟨"a", "b", "v1", "c"⟩ := by
  refine ⟨rfl, rfl, ?_⟩
  decide

/-- C7 amended: the canonical display form is `owner/repo@revision` with
`/subPath` appended *after* the revision when `subPath` is non-empty; the
canonical URL is `https://github.com/{owner}/{repo}/tree/{revision}` with
`/{subPath}` appended when `subPath` is non-empty; the identity parsed from
`"actions/checkout@v4"` round-trips to display string `"actions/checkout@v4"`
and URL `"https://github.com/actions/checkout/tree/v4"`. -/
theorem fullName_url_forms (a : Identity) :
    (a.subPath = "" →
      a.fullName = a.owner ++ "/" ++ a.repo ++ "@" ++ a.ref ∧
      a.url = "https://github.com/" ++ a.owner ++ "/" ++ a.repo ++ "/tree/"
          ++ a.ref) ∧
    (a.subPath ≠ "" →
      a.fullName = a.owner ++ "/" ++ a.repo ++ "@" ++ a.ref ++ "/" ++ a.subPath ∧
      a.url = "https://github.com/" ++ a.owner ++ "/" ++ a.repo ++ "/tree/"
          ++ a.ref ++ "/" ++ a.subPath) ∧
    matchActionName "actions/checkout@v4"
        = some ⟨"actions", "checkout", "v4", ""⟩ ∧
    Identity.fullName ⟨"actions", "checkout", "v4", ""⟩
        = "actions/checkout@v4" ∧
    Identity.url ⟨"actions", "checkout", "v4", ""⟩
        = "https://github.com/actions/checkout/tree/v4" := by
  refine ⟨?_, ?_, rfl, rfl, rfl⟩
  · intro h
    constructor
    · simp [Identity.fullName, h, String.append_empty]
    · simp [Identity.url, h, String.append_empty]
  · intro h
    constructor
    · simp only [Identity.fullName, if_pos h]
      simp [String.append_assoc]
    · simp only [Identity.url, if_pos h]
      simp [String.append_assoc]

/-- Witness for `fullName_url_forms`: both sub-path branches evaluated at
concrete identities. -/
theorem fullName_url_forms_witness :
    (("" : String) = "" ∧
      Identity.fullName ⟨"actions", "checkout", "v4", ""⟩
        = "actions/checkout@v4") ∧
    (("c" : String) ≠ "" ∧
      Identity.fullName ⟨"a", "b", "v1", "c"⟩ = "a/b@v1/c") :=
  ⟨⟨rfl, ((fullName_url_forms ⟨"actions", "checkout", "v4", ""⟩).1 rfl).1⟩,
   ⟨by decide, ((fullName_url_forms ⟨"a", "b", "v1", "c"⟩).2.1 (by decide)).1⟩⟩

/-! ## C4 — maxDepth = 0 -/

/-- C4: at the core, a node expands only if `currentDepth < maxDepth`, so
`scanDependencies` with `maxDepth = 0` returns the node's current (for a
fresh root: empty) dependency set and leaves the state untouched — but the
orchestrator does not preserve this: `RecursiveActionScanner` constructed
with `maxDepth: 0` coerces the falsy `0` to the default `5`
(`options.maxDepth || 5`, src/lib/scanner.mjs line 7), so scanning root
`org/a@v1`, whose manifest declares `uses: org/b@v1`, reports one dependency
instead of the zero dependencies the claim requires. -/
theorem maxDepth_zero_scanner_bug :
    (∀ (f : Identity → Option Manifest) (st : ScanState) (i : Nat),
       Action.scanDependencies f 0 0 st i = (st.depsOf i, st)) ∧
    RecursiveActionScanner.scannerMaxDepth (some 0) = 5 ∧
    ((RecursiveActionScanner.scanActionList
        (RecursiveActionScanner.scannerMaxDepth (some 0)) abFetcher
        ["org/a@v1"] initState).1.rootActions.map
          (fun e => (e.reference, e.success, e.totalDependencies)))
      = [("org/a@v1", true, 1)] := by
  refine ⟨?_, rfl, ?_⟩
  · intro f st i
    rfl
  · rfl

/-! ## C1 — cycle termination -/

/-- A node already marked expanded returns its current dependency set
immediately, whatever depth budget remains. -/
lemma Action.scanFuel_of_scanned (f : Identity → Option Manifest)
    (fuel cd : Nat) (st : ScanState) (i : Nat)
    (h : st.getScanned i = true) :
    Action.scanFuel f fuel cd st i = (st.depsOf i, st) := by
  cases fuel with
  | zero => rfl
  | succ n =>
    show Action.scanLevel f (Action.scanFuel f n) cd st i = _
    unfold Action.scanLevel
    rw [if_pos h]

/-- C1: expanding the root `org/a@v1` of the two-node reference cycle
`org/a@v1 → org/b@v1 → org/a@v1` with any `maxDepth ≥ 2` terminates — the
embedded `scanDependencies` is a total function, and the re-entered root is
already marked expanded (`scanned = true`) so the cycle's second visit
returns at once — and the dependency set of the root contains both nodes of
the cycle. -/
theorem cycle_scan_terminates_and_contains_both (md : Nat) (h : 2 ≤ md) :
    (Action.scanDependencies cycFetcher md 0 cycStart 0).1 = [bId, aId] ∧
    aId ∈ (Action.scanDependencies cycFetcher md 0 cycStart 0).1 ∧
    bId ∈ (Action.scanDependencies cycFetcher md 0 cycStart 0).1 := by
  obtain ⟨k, rfl⟩ : ∃ k, md = k + 2 := ⟨md - 2, by omega⟩
  have h1 : Action.scanDependencies cycFetcher (k + 2) 0 cycStart 0
      = (fun r : List Identity × ScanState =>
          let st7 := r.1.foldl (fun s d => s.addDep 1 d) r.2
          let st8 := (st7.depsOf 1).foldl (fun s d => s.addDep 0 d) st7
          (st8.depsOf 0, st8))
        (Action.scanFuel cycFetcher k 2 cycMid 0) := rfl
  rw [Action.scanFuel_of_scanned cycFetcher k 2 cycMid 0 rfl] at h1
  rw [h1]
  refine ⟨rfl, ?_, ?_⟩
  · rw [show ((fun r : List Identity × ScanState =>
        let st7 := r.1.foldl (fun s d => s.addDep 1 d) r.2
        let st8 := (st7.depsOf 1).foldl (fun s d => s.addDep 0 d) st7
        (st8.depsOf 0, st8)) (cycMid.depsOf 0, cycMid)).1 = [bId, aId] from rfl]
    simp
  · rw [show ((fun r : List Identity × ScanState =>
        let st7 := r.1.foldl (fun s d => s.addDep 1 d) r.2
        let st8 := (st7.depsOf 1).foldl (fun s d => s.addDep 0 d) st7
        (st8.depsOf 0, st8)) (cycMid.depsOf 0, cycMid)).1 = [bId, aId] from rfl]
    simp

/-- Witness for `cycle_scan_terminates_and_contains_both` at the smallest
admissible depth bound, `maxDepth = 2`. -/
theorem cycle_scan_witness :
    2 ≤ 2 ∧ aId ∈ (Action.scanDependencies cycFetcher 2 0 cycStart 0).1 :=
  ⟨Nat.le_refl 2, (cycle_scan_terminates_and_contains_both 2 (Nat.le_refl 2)).2.1⟩

/-! ## C10 — per-step error containment -/

/-- C10: during expansion of a node, an error raised by the body of one
`uses` step (`stepTry` — for *any* child-expansion function `recur`, so in
particular for the full recursive expansion) is caught at that step: the
state accumulated so far (dependencies already added to the node) is kept
unchanged, that single dependency entry is skipped, and the remaining steps
are still processed.  Moreover the only failure point of the step body is
reference parsing: an error implies the step's `uses` string is unparsable
and carries the `Invalid action reference` message; every later part of the
body (cache resolution, recursive expansion, dependency accumulation) is
total, as in the source, where all deeper failure paths are caught inside
the callees. -/
theorem step_error_skips_only_that_step
    (recur : ScanState → Nat → List Identity × ScanState)
    (st : ScanState) (i : Nat) (u : String) (step : Step)
    (rest : List Step) (e : String)
    (hu : step.uses = some u)
    (he : Action.stepTry recur st i u = .error e) :
    Action.scanStepsLoop recur st i (step :: rest)
        = Action.scanStepsLoop recur st i rest ∧
    matchActionName u = none ∧
    e = "Invalid action reference: " ++ u := by
  have hparse : matchActionName u = none ∧
      e = "Invalid action reference: " ++ u := by
    unfold Action.stepTry at he
    rcases hm : matchActionName u with _ | id
    · unfold Action.fromUsesString at he
      rw [hm] at he
      cases he
      exact ⟨rfl, rfl⟩
    · unfold Action.fromUsesString at he
      rw [hm] at he
      cases he
  refine ⟨?_, hparse.1, hparse.2⟩
  show Action.scanStepsLoop recur
      (match step.uses with
       | none => st
       | some u => if u = "" then st
          else match Action.stepTry recur st i u with
               | .ok st2 => st2
               | .error _ => st) i rest = _
  rw [hu]
  show Action.scanStepsLoop recur
      (if u = "" then st
       else match Action.stepTry recur st i u with
            | .ok st2 => st2
            | .error _ => st) i rest = _
  rcases hu0 : decide (u = "") with _ | _
  · rw [if_neg (by simpa using hu0), he]
  · rw [if_pos (by simpa using hu0)]

/-- Witness for `step_error_skips_only_that_step`: a concrete malformed
`uses` string inside a two-step manifest, under the identity
non-expansion. -/
theorem step_error_skips_witness :
    Action.stepTry (fun st j => (st.depsOf j, st)) initState 0 "not-a-ref"
        = .error "Invalid action reference: not-a-ref" ∧
    Action.scanStepsLoop (fun st j => (st.depsOf j, st)) initState 0
        [⟨some "not-a-ref"⟩, ⟨none⟩]
      = Action.scanStepsLoop (fun st j => (st.depsOf j, st)) initState 0
        [⟨none⟩] :=
  ⟨rfl,
   (step_error_skips_only_that_step (fun st j => (st.depsOf j, st)) initState 0
      "not-a-ref" ⟨some "not-a-ref"⟩ [⟨none⟩]
      "Invalid action reference: not-a-ref" rfl rfl).1⟩

/-! ## C9 — per-root failure isolation in the orchestrator -/

lemma upsert_mem {β : Type} (xs : List (String × β)) (k : String) (v : β) :
    ∀ p ∈ upsert xs k v, p ∈ xs ∨ p = (k, v) := by
  induction xs with
  | nil => simp [upsert]
  | cons hd tl ih =>
    intro p hp
    unfold upsert at hp
    by_cases hk : hd.1 = k
    · rw [if_pos (by simp [hk])] at hp
      rcases List.mem_cons.mp hp with h | h
      · exact Or.inr h
      · exact Or.inl (List.mem_cons_of_mem _ h)
    · rw [if_neg (by simp [hk])] at hp
      rcases List.mem_cons.mp hp with h | h
      · exact Or.inl (h ▸ List.mem_cons_self _ _)
      · rcases ih p h with h2 | h2
        · exact Or.inl (List.mem_cons_of_mem _ h2)
        · exact Or.inr h2

lemma upsert_key_mem {β : Type} (xs : List (String × β)) (k : String) (v : β) :
    k ∈ (upsert xs k v).map Prod.fst := by
  induction xs with
  | nil => simp [upsert]
  | cons hd tl ih =>
    unfold upsert
    by_cases hk : hd.1 = k
    · rw [if_pos (by simp [hk])]
      simp
    · rw [if_neg (by simp [hk])]
      simpa using Or.inr ih

lemma upsert_keeps_key {β : Type} (xs : List (String × β)) (k k' : String)
    (v : β) (h : k' ∈ xs.map Prod.fst) :
    k' ∈ (upsert xs k v).map Prod.fst := by
  induction xs with
  | nil => simp at h
  | cons hd tl ih =>
    unfold upsert
    by_cases hk : hd.1 = k
    · rw [if_pos (by simp [hk])]
      rcases List.mem_map.mp h with ⟨p, hp, hk'⟩
      rcases List.mem_cons.mp hp with h2 | h2
      · subst h2
        simp [← hk', hk]
      · simpa using Or.inr (List.mem_map.mpr ⟨p, h2, hk'⟩)
    · rw [if_neg (by simp [hk])]
      rcases List.mem_map.mp h with ⟨p, hp, hk'⟩
      rcases List.mem_cons.mp hp with h2 | h2
      · subst h2
        simp [← hk']
      · simpa using Or.inr (ih (List.mem_map.mpr ⟨p, h2, hk'⟩))

lemma processRoots_resultOk (md : Nat) (f : Identity → Option Manifest) :
    ∀ (refs : List String) (st : ScanState)
      (results : List (String × RecursiveActionScanner.RootResult)),
      (∀ p ∈ results, resultOk p.1 p.2) →
      (∀ p ∈ (RecursiveActionScanner.processRoots md f refs st results).1,
        resultOk p.1 p.2) ∧
      (∀ r ∈ refs,
        r ∈ ((RecursiveActionScanner.processRoots md f refs st results).1.map
          Prod.fst)) ∧
      (∀ k, k ∈ results.map Prod.fst →
        k ∈ ((RecursiveActionScanner.processRoots md f refs st results).1.map
          Prod.fst)) := by
  intro refs
  induction refs with
  | nil =>
    intro st results hok
    exact ⟨hok, by simp, fun k hk => hk⟩
  | cons r rest ih =>
    intro st results hok
    rcases hm : matchActionName r with _ | id
    · have hfe : Action.fromUsesString st r
          = .error ("Invalid action reference: " ++ r) := by
        unfold Action.fromUsesString
        rw [hm]
      have hred : RecursiveActionScanner.processRoots md f (r :: rest) st
            results
          = RecursiveActionScanner.processRoots md f rest st
            (upsert results r ⟨none, [],
              some ("Invalid action reference: " ++ r), 0⟩) := by
        conv_lhs => unfold RecursiveActionScanner.processRoots
        rw [hfe]
      rw [hred]
      have hok2 : ∀ p ∈ upsert results r
          (⟨none, [], some ("Invalid action reference: " ++ r), 0⟩ :
            RecursiveActionScanner.RootResult), resultOk p.1 p.2 := by
        intro p hp
        rcases upsert_mem _ _ _ p hp with h2 | h2
        · exact hok p h2
        · subst h2
          show resultOk r _
          unfold resultOk
          rw [hm]
      obtain ⟨ha, hb, hc⟩ := ih st _ hok2
      refine ⟨ha, ?_, fun k hk => hc k (upsert_keeps_key _ _ _ _ hk)⟩
      intro r2 hr2
      rcases List.mem_cons.mp hr2 with h2 | h2
      · subst h2
        exact hc r2 (upsert_key_mem _ _ _)
      · exact hb r2 h2
    · have hfe : Action.fromUsesString st r
          = .ok (ActionCache.findOrCreate st id.owner id.repo id.ref
              id.subPath) := by
        unfold Action.fromUsesString
        rw [hm]
      have hred : RecursiveActionScanner.processRoots md f (r :: rest) st
            results
          = RecursiveActionScanner.processRoots md f rest
            (Action.scanDependencies f md 0
              (ActionCache.findOrCreate st id.owner id.repo id.ref
                id.subPath).2
              (ActionCache.findOrCreate st id.owner id.repo id.ref
                id.subPath).1).2
            (upsert results r
              ⟨some ((Action.scanDependencies f md 0
                  (ActionCache.findOrCreate st id.owner id.repo id.ref
                    id.subPath).2
                  (ActionCache.findOrCreate st id.owner id.repo id.ref
                    id.subPath).1).2.identOf
                  (ActionCache.findOrCreate st id.owner id.repo id.ref
                    id.subPath).1),
               (Action.scanDependencies f md 0
                  (ActionCache.findOrCreate st id.owner id.repo id.ref
                    id.subPath).2
                  (ActionCache.findOrCreate st id.owner id.repo id.ref
                    id.subPath).1).1,
               none,
               (Action.scanDependencies f md 0
                  (ActionCache.findOrCreate st id.owner id.repo id.ref
                    id.subPath).2
                  (ActionCache.findOrCreate st id.owner id.repo id.ref
                    id.subPath).1).1.length⟩) := by
        conv_lhs => unfold RecursiveActionScanner.processRoots
        rw [hfe]
      rw [hred]
      have hok2 : ∀ p ∈ upsert results r
          (⟨some ((Action.scanDependencies f md 0
              (ActionCache.findOrCreate st id.owner id.repo id.ref
                id.subPath).2
              (ActionCache.findOrCreate st id.owner id.repo id.ref
                id.subPath).1).2.identOf
              (ActionCache.findOrCreate st id.owner id.repo id.ref
                id.subPath).1),
            (Action.scanDependencies f md 0
              (ActionCache.findOrCreate st id.owner id.repo id.ref
                id.subPath).2
              (ActionCache.findOrCreate st id.owner id.repo id.ref
                id.subPath).1).1,
            none,
            (Action.scanDependencies f md 0
              (ActionCache.findOrCreate st id.owner id.repo id.ref
                id.subPath).2
              (ActionCache.findOrCreate st id.owner id.repo id.ref
                id.subPath).1).1.length⟩ :
            RecursiveActionScanner.RootResult), resultOk p.1 p.2 := by
        intro p hp
        rcases upsert_mem _ _ _ p hp with h2 | h2
        · exact hok p h2
        · subst h2
          show resultOk r _
          unfold resultOk
          rw [hm]
      obtain ⟨ha, hb, hc⟩ := ih _ _ hok2
      refine ⟨ha, ?_, fun k hk => hc k (upsert_keeps_key _ _ _ _ hk)⟩
      intro r2 hr2
      rcases List.mem_cons.mp hr2 with h2 | h2
      · subst h2
        exact hc r2 (upsert_key_mem _ _ _)
      · exact hb r2 h2

lemma invalid_message_ne_empty (r : String) :
    ("Invalid action reference: " ++ r : String) ≠ "" := by
  intro h
  have h2 := congrArg String.data h
  rw [String.data_append] at h2
  simp at h2

/-- C9: `scanActionList` always returns a report classifying every root as a
success or a failure — no error escapes the orchestrator (the embedded
function is total) — in which every entry either succeeded with no recorded
error or failed carrying the `MalformedReferenceError`-style message for its
own reference; and every requested root reference appears in the report,
recorded as a failure with the parse-error message exactly when it is
malformed, and as a success otherwise, independently of the other roots in
the batch. -/
theorem scan_batch_isolates_failures (md : Nat)
    (f : Identity → Option Manifest) (refs : List String) (st : ScanState) :
    (∀ e ∈ (RecursiveActionScanner.scanActionList md f refs st).1.rootActions,
       (e.success = true ∧ e.error = none) ∨
       (e.success = false ∧
        e.error = some ("Invalid action reference: " ++ e.reference))) ∧
    (∀ r ∈ refs,
       ∃ e ∈ (RecursiveActionScanner.scanActionList md f refs st).1.rootActions,
         e.reference = r ∧
         (matchActionName r = none →
            e.success = false ∧
            e.error = some ("Invalid action reference: " ++ r)) ∧
         (matchActionName r ≠ none →
            e.success = true ∧ e.error = none)) := by
  cases refs with
  | nil =>
    constructor
    · intro e he
      simp [RecursiveActionScanner.scanActionList,
        RecursiveActionScanner.generateReport] at he
    · intro r hr
      simp at hr
  | cons r0 rest =>
    obtain ⟨hok, hmem, -⟩ :=
      processRoots_resultOk md f (r0 :: rest) st [] (by simp)
    have hrep : (RecursiveActionScanner.scanActionList md f (r0 :: rest)
          st).1.rootActions
        = (RecursiveActionScanner.processRoots md f (r0 :: rest) st []).1.map
          (fun p =>
            { reference := p.1
              success := !isTruthyOptStr p.2.error
              error := p.2.error
              totalDependencies := p.2.totalDependencies
              dependencies := p.2.dependencies }) := rfl
    rw [hrep]
    constructor
    · intro e he
      obtain ⟨p, hp, rfl⟩ := List.mem_map.mp he
      have hpok := hok p hp
      unfold resultOk at hpok
      rcases hm : matchActionName p.1 with _ | id
      · rw [hm] at hpok
        rw [hpok]
        right
        refine ⟨?_, rfl⟩
        simp only [isTruthyOptStr]
        simp [invalid_message_ne_empty p.1]
      · rw [hm] at hpok
        left
        rw [hpok]
        exact ⟨rfl, rfl⟩
    · intro r hr
      have hkey := hmem r hr
      obtain ⟨p, hp, hfst⟩ := List.mem_map.mp hkey
      refine ⟨_, List.mem_map.mpr ⟨p, hp, rfl⟩, hfst, ?_, ?_⟩
      · intro hnone
        have hpok := hok p hp
        unfold resultOk at hpok
        rw [hfst, hnone] at hpok
        rw [hpok]
        refine ⟨?_, by rw [hfst]⟩
        simp only [isTruthyOptStr]
        simp [invalid_message_ne_empty r]
      · intro hsome
        have hpok := hok p hp
        unfold resultOk at hpok
        rcases hm : matchActionName p.1 with _ | id
        · rw [hfst] at hm
          exact absurd hm hsome
        · rw [hm] at hpok
          refine ⟨?_, hpok⟩
          rw [hpok]
          rfl

/-- Witness for `scan_batch_isolates_failures`: a batch with one malformed
and one well-formed root — the malformed root fails with the parse message,
the other succeeds. -/
theorem scan_batch_isolates_failures_witness :
    ("not-a-valid-ref" ∈ (["not-a-valid-ref", "org/a@v1"] : List String)) ∧
    (∃ e ∈ (RecursiveActionScanner.scanActionList 5 abFetcher
        ["not-a-valid-ref", "org/a@v1"] initState).1.rootActions,
      e.reference = "not-a-valid-ref" ∧
      (matchActionName "not-a-valid-ref" = none →
        e.success = false ∧
        e.error = some "Invalid action reference: not-a-valid-ref") ∧
      (matchActionName "not-a-valid-ref" ≠ none →
        e.success = true ∧ e.error = none)) := by
  refine ⟨by simp, ?_⟩
  have h := (scan_batch_isolates_failures 5 abFetcher
    ["not-a-valid-ref", "org/a@v1"] initState).2 "not-a-valid-ref" (by simp)
  exact h

/-! ## C8 — cache lifetime across scan runs -/

/-- C8 counterexample: `ActionCache.actions` is a static, process-wide array,
so a second scan run starts from the first run's state.  Scanning root
`org/b@v1` at `maxDepth = 1` and then re-scanning it at `maxDepth = 2`
reports one dependency (the stale depth-1 set from the first run), while the
same `maxDepth = 2` scan from a fresh, empty cache reports two — the two
runs are not equivalent to fresh-cache runs, contradicting the claim. -/
theorem cache_not_run_scoped_counterexample :
    ((RecursiveActionScanner.scanActionList 2 chainFetcher ["org/b@v1"]
        (RecursiveActionScanner.scanActionList 1 chainFetcher ["org/b@v1"]
          initState).2).1.rootActions.map
        (fun e => e.totalDependencies) = [1]) ∧
    ((RecursiveActionScanner.scanActionList 2 chainFetcher ["org/b@v1"]
        initState).1.rootActions.map
        (fun e => e.totalDependencies) = [2]) ∧
    (RecursiveActionScanner.scanActionList 2 chainFetcher ["org/b@v1"]
        (RecursiveActionScanner.scanActionList 1 chainFetcher ["org/b@v1"]
          initState).2).1
      ≠ (RecursiveActionScanner.scanActionList 2 chainFetcher ["org/b@v1"]
        initState).1 := by
  refine ⟨rfl, rfl, ?_⟩
  decide

/-- C8 amended: the dependency cache is process-wide static state reused
across scan runs: a later run sees the nodes, expanded flags and cached
manifests of earlier runs.  A root whose node is already expanded is neither
re-fetched nor re-expanded — the whole run leaves the state (cache and fetch
log) untouched and reports the stale stored dependency set — so two runs
executed one after the other are in general not equivalent to two runs each
starting from a fresh, empty cache. -/
theorem cache_shared_across_runs (md : Nat) (f : Identity → Option Manifest)
    (st : ScanState) (r : String) (id : Identity) (i : Nat)
    (hparse : matchActionName r = some id)
    (hfind : ActionCache.find st id.owner id.repo id.ref id.subPath = some i)
    (hscanned : st.getScanned i = true) :
    (RecursiveActionScanner.scanActionList md f [r] st).2 = st ∧
    (RecursiveActionScanner.scanActionList md f [r] st).1.rootActions
      = [⟨r, true, none, (st.depsOf i).length, st.depsOf i⟩] := by
  have h1 : Action.fromUsesString st r = .ok (i, st) := by
    unfold Action.fromUsesString
    rw [hparse]
    show Except.ok (ActionCache.findOrCreate st id.owner id.repo id.ref
      id.subPath) = _
    rw [ActionCache.findOrCreate_of_find_some st id.owner id.repo id.ref
      id.subPath i hfind]
  have h2 : Action.scanDependencies f md 0 st i = (st.depsOf i, st) := by
    unfold Action.scanDependencies
    exact Action.scanFuel_of_scanned f (md - 0) 0 st i hscanned
  have h3 : RecursiveActionScanner.processRoots md f [r] st []
      = ([(r, ⟨some (st.identOf i), st.depsOf i, none,
            (st.depsOf i).length⟩)], st) := by
    conv_lhs => unfold RecursiveActionScanner.processRoots
    rw [h1]
    show RecursiveActionScanner.processRoots md f []
        (Action.scanDependencies f md 0 st i).2
        (upsert [] r ⟨some ((Action.scanDependencies f md 0 st i).2.identOf i),
          (Action.scanDependencies f md 0 st i).1, none,
          (Action.scanDependencies f md 0 st i).1.length⟩) = _
    rw [h2]
    rfl
  have h4 : RecursiveActionScanner.scanActionList md f [r] st
      = (RecursiveActionScanner.generateReport md
          (RecursiveActionScanner.processRoots md f [r] st []).1,
         (RecursiveActionScanner.processRoots md f [r] st []).2) := rfl
  rw [h4, h3]
  exact ⟨rfl, rfl⟩

/-- Witness for `cache_shared_across_runs`: the second run over the state
left by a first depth-1 run of root `org/b@v1` returns the stale single-entry
dependency set and changes nothing. -/
theorem cache_shared_across_runs_witness :
    matchActionName "org/b@v1" = some bId ∧
    (RecursiveActionScanner.scanActionList 2 chainFetcher ["org/b@v1"]
        (RecursiveActionScanner.scanActionList 1 chainFetcher ["org/b@v1"]
          initState).2).2
      = (RecursiveActionScanner.scanActionList 1 chainFetcher ["org/b@v1"]
          initState).2 := by
  refine ⟨rfl, ?_⟩
  exact (cache_shared_across_runs 2 chainFetcher
    (RecursiveActionScanner.scanActionList 1 chainFetcher ["org/b@v1"]
      initState).2 "org/b@v1" bId 0 rfl rfl rfl).1

/-! ## C5 — maxDepth = 1 yields exactly the direct dependencies -/

lemma ScanState.depsOf_oob (st : ScanState) (k : Nat)
    (hk : st.actions.length ≤ k) : st.depsOf k = [] := by
  simp [ScanState.depsOf, ScanState.node?, List.get?_eq_getElem?,
    List.getElem?_eq_none hk]

lemma ScanState.addDep_length (st : ScanState) (i : Nat) (d : Identity) :
    (st.addDep i d).actions.length = st.actions.length := by
  unfold ScanState.addDep ScanState.modifyNode
  rcases st.actions.get? i with _ | a
  · rfl
  · simp

lemma ScanState.addDep_depsOf_self (st : ScanState) (i : Nat) (d : Identity)
    (hi : i < st.actions.length) :
    (st.addDep i d).depsOf i = insertOnce (st.depsOf i) d := by
  unfold ScanState.addDep ScanState.modifyNode
  rw [List.get?_eq_getElem?, List.getElem?_eq_getElem hi]
  show ScanState.depsOf _ i = _
  unfold ScanState.depsOf ScanState.node?
  rw [List.get?_eq_getElem?, List.getElem?_set_self (by simpa using hi)]
  unfold insertOnce
  by_cases hd : d ∈ (st.actions[i]).dependencies
  · simp [hd, List.get?_eq_getElem?, List.getElem?_eq_getElem hi]
  · simp [hd, List.get?_eq_getElem?, List.getElem?_eq_getElem hi]

lemma ScanState.addDep_depsOf_other (st : ScanState) (i : Nat) (d : Identity)
    (k : Nat) (hk : k ≠ i) : (st.addDep i d).depsOf k = st.depsOf k := by
  unfold ScanState.addDep ScanState.modifyNode
  rcases h : st.actions.get? i with _ | a
  · rfl
  · unfold ScanState.depsOf ScanState.node?
    rw [List.get?_eq_getElem?, List.get?_eq_getElem?,
      List.getElem?_set_ne (fun he => hk he.symm)]

lemma foldl_addDep_state (i : Nat) :
    ∀ (L : List Identity) (st : ScanState), i < st.actions.length →
      ((L.foldl (fun s d => s.addDep i d) st).depsOf i
          = L.foldl insertOnce (st.depsOf i)) ∧
      (∀ k, k ≠ i →
        (L.foldl (fun s d => s.addDep i d) st).depsOf k = st.depsOf k) ∧
      (L.foldl (fun s d => s.addDep i d) st).actions.length
          = st.actions.length := by
  intro L
  induction L with
  | nil => intro st hi; exact ⟨rfl, fun _ _ => rfl, rfl⟩
  | cons d rest ih =>
    intro st hi
    have hlen : (st.addDep i d).actions.length = st.actions.length :=
      ScanState.addDep_length st i d
    obtain ⟨h1, h2, h3⟩ := ih (st.addDep i d) (by rw [hlen]; exact hi)
    refine ⟨?_, ?_, ?_⟩
    · show (rest.foldl (fun s d => s.addDep i d) (st.addDep i d)).depsOf i = _
      rw [h1, ScanState.addDep_depsOf_self st i d hi]
      rfl
    · intro k hk
      show (rest.foldl (fun s d => s.addDep i d) (st.addDep i d)).depsOf k = _
      rw [h2 k hk, ScanState.addDep_depsOf_other st i d k hk]
    · show (rest.foldl (fun s d => s.addDep i d) (st.addDep i d)).actions.length
          = st.actions.length
      rw [h3, hlen]

lemma foldl_insertOnce_self :
    ∀ (L D : List Identity), (∀ d ∈ L, d ∈ D) → L.foldl insertOnce D = D := by
  intro L
  induction L with
  | nil => intro D _; rfl
  | cons d rest ih =>
    intro D h
    show rest.foldl insertOnce (insertOnce D d) = D
    rw [show insertOnce D d = D from if_pos (h d (List.mem_cons_self d rest))]
    exact ih D (fun x hx => h x (List.mem_cons_of_mem d hx))

lemma insertOnce_mem (D : List Identity) (d x : Identity) (hx : x ∈ D) :
    x ∈ insertOnce D d := by
  unfold insertOnce
  by_cases hd : d ∈ D
  · rwa [if_pos hd]
  · rw [if_neg hd]
    exact List.mem_append_left _ hx

lemma ActionCache.findOrCreate_identOf (st : ScanState)
    (o r rf sp : String) :
    (ActionCache.findOrCreate st o r rf sp).2.identOf
      (ActionCache.findOrCreate st o r rf sp).1 = ⟨o, r, rf, sp⟩ := by
  rcases hf : ActionCache.find st o r rf sp with _ | i
  · rw [ActionCache.findOrCreate_of_find_none st o r rf sp hf]
    show ScanState.identOf _ st.actions.length = _
    unfold ScanState.identOf ScanState.node?
    simp [List.get?_eq_getElem?, List.getElem?_concat_length, Action.ident_mk0]
  · obtain ⟨hi, hident⟩ := ActionCache.find_eq_some st o r rf sp i hf
    rw [ActionCache.findOrCreate_of_find_some st o r rf sp i hf]
    show st.identOf i = _
    rw [ScanState.identOf_of_getElem st i hi]
    exact hident

lemma ActionCache.findOrCreate_depsOf (st : ScanState) (o r rf sp : String)
    (k : Nat) :
    (ActionCache.findOrCreate st o r rf sp).2.depsOf k = st.depsOf k ∨
    (ActionCache.findOrCreate st o r rf sp).2.depsOf k = [] := by
  rcases hf : ActionCache.find st o r rf sp with _ | i
  · rw [ActionCache.findOrCreate_of_find_none st o r rf sp hf]
    by_cases hk : k < st.actions.length
    · left
      show ScanState.depsOf _ k = _
      unfold ScanState.depsOf ScanState.node?
      rw [List.get?_eq_getElem?, List.get?_eq_getElem?, List.getElem?_append,
        if_pos hk]
    · right
      show ScanState.depsOf _ k = _
      unfold ScanState.depsOf ScanState.node?
      rw [List.get?_eq_getElem?, List.getElem?_append, if_neg hk]
      rcases Nat.lt_or_ge k (st.actions.length + 1) with h2 | h2
      · have hk0 : k - st.actions.length = 0 := by omega
        rw [hk0]
        rfl
      · rw [List.getElem?_eq_none (by simp; omega)]
        rfl
  · rw [ActionCache.findOrCreate_of_find_some st o r rf sp i hf]
    exact Or.inl rfl

lemma ActionCache.findOrCreate_length (st : ScanState) (o r rf sp : String) :
    st.actions.length ≤
      (ActionCache.findOrCreate st o r rf sp).2.actions.length := by
  rcases hf : ActionCache.find st o r rf sp with _ | i
  · rw [ActionCache.findOrCreate_of_find_none st o r rf sp hf]
    simp
  · rw [ActionCache.findOrCreate_of_find_some st o r rf sp i hf]

lemma ActionCache.findOrCreate_depsOf_lt (st : ScanState)
    (o r rf sp : String) (k : Nat) (hk : k < st.actions.length) :
    (ActionCache.findOrCreate st o r rf sp).2.depsOf k = st.depsOf k := by
  rcases hf : ActionCache.find st o r rf sp with _ | i
  · rw [ActionCache.findOrCreate_of_find_none st o r rf sp hf]
    show ScanState.depsOf _ k = _
    unfold ScanState.depsOf ScanState.node?
    rw [List.get?_eq_getElem?, List.get?_eq_getElem?, List.getElem?_append,
      if_pos hk]
  · rw [ActionCache.findOrCreate_of_find_some st o r rf sp i hf]

lemma scanStepsLoop_cons (recur : ScanState → Nat → List Identity × ScanState)
    (st : ScanState) (i : Nat) (step : Step) (rest : List Step) :
    Action.scanStepsLoop recur st i (step :: rest)
      = Action.scanStepsLoop recur
          (match step.uses with
           | none => st
           | some u =>
             if u = "" then st
             else
               match Action.stepTry recur st i u with
               | .ok st2 => st2
               | .error _ => st) i rest := rfl

lemma parseSteps_cons_skip (step : Step) (rest : List Step)
    (h : step.uses = none ∨
      (∃ u, step.uses = some u ∧ (u = "" ∨ matchActionName u = none))) :
    parseSteps (step :: rest) = parseSteps rest := by
  unfold parseSteps
  rw [List.filterMap_cons]
  rcases h with h | ⟨u, hu, h2⟩
  · rw [h]
  · rw [hu]
    rcases h2 with h2 | h2
    · simp [h2]
    · simp [h2]

lemma parseSteps_cons_hit (step : Step) (rest : List Step) (u : String)
    (id : Identity) (hu : step.uses = some u) (hne : u ≠ "")
    (hm : matchActionName u = some id) :
    parseSteps (step :: rest) = id :: parseSteps rest := by
  unfold parseSteps
  rw [List.filterMap_cons, hu]
  simp only [if_neg hne, hm]

lemma depth_one_loop (f : Identity → Option Manifest) (i : Nat) :
    ∀ (steps : List Step) (st : ScanState),
      i < st.actions.length →
      (∀ k, k ≠ i → st.depsOf k = []) →
      ((Action.scanStepsLoop (Action.scanFuel f 0 1) st i steps).depsOf i
          = (parseSteps steps).foldl insertOnce (st.depsOf i)) ∧
      (∀ k, k ≠ i →
        (Action.scanStepsLoop (Action.scanFuel f 0 1) st i steps).depsOf k
          = []) ∧
      i < (Action.scanStepsLoop (Action.scanFuel f 0 1) st i
        steps).actions.length := by
  intro steps
  induction steps with
  | nil => intro st hi hothers; exact ⟨rfl, hothers, hi⟩
  | cons step rest ih =>
    intro st hi hothers
    rcases hu : step.uses with _ | u
    · rw [scanStepsLoop_cons, hu]
      rw [parseSteps_cons_skip step rest (Or.inl hu)]
      exact ih st hi hothers
    · by_cases hne : u = ""
      · rw [scanStepsLoop_cons, hu]
        simp only [if_pos hne]
        rw [parseSteps_cons_skip step rest (Or.inr ⟨u, hu, Or.inl hne⟩)]
        exact ih st hi hothers
      · rcases hm : matchActionName u with _ | id
        · have hfe : Action.fromUsesString st u
              = .error ("Invalid action reference: " ++ u) := by
            unfold Action.fromUsesString
            rw [hm]
          have hstep : Action.stepTry (Action.scanFuel f 0 1) st i u
              = .error ("Invalid action reference: " ++ u) := by
            unfold Action.stepTry
            rw [hfe]
          rw [scanStepsLoop_cons, hu]
          simp only [if_neg hne, hstep]
          rw [parseSteps_cons_skip step rest (Or.inr ⟨u, hu, Or.inr hm⟩)]
          exact ih st hi hothers
        · have hfe : Action.fromUsesString st u
              = .ok (ActionCache.findOrCreate st id.owner id.repo id.ref
                  id.subPath) := by
            unfold Action.fromUsesString
            rw [hm]
          have hident : (ActionCache.findOrCreate st id.owner id.repo id.ref
                id.subPath).2.identOf
              (ActionCache.findOrCreate st id.owner id.repo id.ref
                id.subPath).1 = id := by
            obtain ⟨o2, r2, rf2, sp2⟩ := id
            exact ActionCache.findOrCreate_identOf st o2 r2 rf2 sp2
          have hstep : Action.stepTry (Action.scanFuel f 0 1) st i u
              = .ok ((((ActionCache.findOrCreate st id.owner id.repo id.ref
                    id.subPath).2.addDep i
                    ((ActionCache.findOrCreate st id.owner id.repo id.ref
                      id.subPath).2.identOf
                     (ActionCache.findOrCreate st id.owner id.repo id.ref
                      id.subPath).1)).depsOf
                   (ActionCache.findOrCreate st id.owner id.repo id.ref
                    id.subPath).1).foldl (fun s d => s.addDep i d)
                  ((ActionCache.findOrCreate st id.owner id.repo id.ref
                    id.subPath).2.addDep i
                   ((ActionCache.findOrCreate st id.owner id.repo id.ref
                     id.subPath).2.identOf
                    (ActionCache.findOrCreate st id.owner id.repo id.ref
                     id.subPath).1))) := by
            unfold Action.stepTry
            rw [hfe]
            rfl
          rw [scanStepsLoop_cons, hu]
          simp only [if_neg hne, hstep]
          rw [parseSteps_cons_hit step rest u id hu hne hm]
          -- abbreviations
          rw [hident]
          have hi1 : i < (ActionCache.findOrCreate st id.owner id.repo id.ref
              id.subPath).2.actions.length :=
            Nat.lt_of_lt_of_le hi
              (ActionCache.findOrCreate_length st id.owner id.repo id.ref
                id.subPath)
          have hdi1 : (ActionCache.findOrCreate st id.owner id.repo id.ref
              id.subPath).2.depsOf i = st.depsOf i :=
            ActionCache.findOrCreate_depsOf_lt st id.owner id.repo id.ref
              id.subPath i hi
          have hoth1 : ∀ k, k ≠ i →
              (ActionCache.findOrCreate st id.owner id.repo id.ref
                id.subPath).2.depsOf k = [] := by
            intro k hk
            rcases ActionCache.findOrCreate_depsOf st id.owner id.repo id.ref
              id.subPath k with h2 | h2
            · rw [h2]; exact hothers k hk
            · exact h2
          set st1 := (ActionCache.findOrCreate st id.owner id.repo id.ref
            id.subPath).2 with hst1
          set j := (ActionCache.findOrCreate st id.owner id.repo id.ref
            id.subPath).1 with hj
          have hi2 : i < (st1.addDep i id).actions.length := by
            rw [ScanState.addDep_length]; exact hi1
          have hd2self : (st1.addDep i id).depsOf i
              = insertOnce (st.depsOf i) id := by
            rw [ScanState.addDep_depsOf_self st1 i id hi1, hdi1]
          have hoth2 : ∀ k, k ≠ i → (st1.addDep i id).depsOf k = [] := by
            intro k hk
            rw [ScanState.addDep_depsOf_other st1 i id k hk]
            exact hoth1 k hk
          obtain ⟨hf1, hf2, hf3⟩ := foldl_addDep_state i
            ((st1.addDep i id).depsOf j) (st1.addDep i id) hi2
          have hnested : ((st1.addDep i id).depsOf j).foldl insertOnce
              ((st1.addDep i id).depsOf i) = insertOnce (st.depsOf i) id := by
            by_cases hji : j = i
            · subst hji
              rw [hd2self]
              exact foldl_insertOnce_self _ _ (fun d hd => hd)
            · rw [hoth2 j hji]
              exact hd2self
          obtain ⟨hr1, hr2, hr3⟩ := ih
            (((st1.addDep i id).depsOf j).foldl (fun s d => s.addDep i d)
              (st1.addDep i id))
            (by rw [hf3]; exact hi2)
            (fun k hk => by rw [hf2 k hk]; exact hoth2 k hk)
          refine ⟨?_, hr2, hr3⟩
          rw [hr1, hf1, hnested]
          rfl

lemma ScanState.setScanned_depsOf (st : ScanState) (i k : Nat) :
    (st.setScanned i).depsOf k = st.depsOf k := by
  unfold ScanState.setScanned ScanState.modifyNode
  rcases h : st.actions.get? i with _ | a
  · rfl
  · have hi : i < st.actions.length := by
      rw [List.get?_eq_getElem?] at h
      exact (List.getElem?_eq_some.mp h).1
    by_cases hk : k = i
    · subst hk
      unfold ScanState.depsOf ScanState.node?
      rw [List.get?_eq_getElem?, List.getElem?_set_self (by simpa using hi), h]
      rfl
    · unfold ScanState.depsOf ScanState.node?
      rw [List.get?_eq_getElem?, List.get?_eq_getElem?,
        List.getElem?_set_ne (fun he => hk he.symm)]

lemma ScanState.setScanned_length (st : ScanState) (i : Nat) :
    (st.setScanned i).actions.length = st.actions.length := by
  unfold ScanState.setScanned ScanState.modifyNode
  rcases st.actions.get? i with _ | a
  · rfl
  · simp

lemma Action.getActionYaml_of_oob (f : Identity → Option Manifest)
    (st : ScanState) (i : Nat) (h : st.node? i = none) :
    Action.getActionYaml f st i = (none, st) := by
  unfold Action.getActionYaml
  rw [h]

lemma Action.getActionYaml_of_cached (f : Identity → Option Manifest)
    (st : ScanState) (i : Nat) (a : Action) (v : Option Manifest)
    (h : st.node? i = some a) (hy : a.actionYaml = some v) :
    Action.getActionYaml f st i = (v, st) := by
  unfold Action.getActionYaml
  rw [h]
  dsimp only
  rw [hy]

lemma Action.getActionYaml_of_undefined (f : Identity → Option Manifest)
    (st : ScanState) (i : Nat) (a : Action)
    (h : st.node? i = some a) (hy : a.actionYaml = none) :
    Action.getActionYaml f st i
      = (f a.ident,
         { st with
            actions := st.actions.set i { a with actionYaml := some (f a.ident) },
            fetchLog := st.fetchLog ++ [a.ident] }) := by
  unfold Action.getActionYaml
  rw [h]
  dsimp only
  rw [hy]

lemma ScanState.node?_lt_length (st : ScanState) (i : Nat) (a : Action)
    (h : st.node? i = some a) : i < st.actions.length := by
  unfold ScanState.node? at h
  rw [List.get?_eq_getElem?] at h
  exact (List.getElem?_eq_some.mp h).1

lemma Action.getActionYaml_depsOf (f : Identity → Option Manifest)
    (st : ScanState) (i k : Nat) :
    (Action.getActionYaml f st i).2.depsOf k = st.depsOf k := by
  rcases h : st.node? i with _ | a
  · rw [Action.getActionYaml_of_oob f st i h]
  · rcases hy : a.actionYaml with _ | v
    · rw [Action.getActionYaml_of_undefined f st i a h hy]
      have hi := ScanState.node?_lt_length st i a h
      by_cases hk : k = i
      · subst hk
        show ScanState.depsOf _ k = _
        unfold ScanState.depsOf ScanState.node?
        rw [List.get?_eq_getElem?, List.getElem?_set_self (by simpa using hi)]
        rw [show st.actions.get? k = some a from h]
        rfl
      · show ScanState.depsOf _ k = _
        unfold ScanState.depsOf ScanState.node?
        rw [List.get?_eq_getElem?, List.get?_eq_getElem?,
          List.getElem?_set_ne (fun he => hk he.symm)]
    · rw [Action.getActionYaml_of_cached f st i a v h hy]

lemma Action.getActionYaml_length (f : Identity → Option Manifest)
    (st : ScanState) (i : Nat) :
    (Action.getActionYaml f st i).2.actions.length = st.actions.length := by
  rcases h : st.node? i with _ | a
  · rw [Action.getActionYaml_of_oob f st i h]
  · rcases hy : a.actionYaml with _ | v
    · rw [Action.getActionYaml_of_undefined f st i a h hy]
      simp
    · rw [Action.getActionYaml_of_cached f st i a v h hy]

lemma Action.getActionYaml_val_of_undefined (f : Identity → Option Manifest)
    (st : ScanState) (i : Nat) (a : Action) (h : st.node? i = some a)
    (hy : a.actionYaml = none) :
    (Action.getActionYaml f st i).1 = f a.ident := by
  rw [Action.getActionYaml_of_undefined f st i a h hy]

lemma ScanState.setScanned_node? (st : ScanState) (i : Nat)
    (hi : i < st.actions.length) :
    (st.setScanned i).node? i = some { st.actions[i] with scanned := true } := by
  unfold ScanState.setScanned ScanState.modifyNode
  rw [List.get?_eq_getElem?, List.getElem?_eq_getElem hi]
  show ScanState.node? _ i = _
  unfold ScanState.node?
  rw [List.get?_eq_getElem?, List.getElem?_set_self (by simpa using hi)]

/-- C5: scanning a previously-unscanned root at `maxDepth = 1` (over a cache
of previously-unscanned nodes) reports exactly the root's direct
dependencies — the parseable `uses` identities of its own manifest,
de-duplicated in order — and none of those dependencies' own dependencies,
because each dependency discovered at `currentDepth = 0` is expanded at
depth `1`, which is cut off by `1 ≥ maxDepth`. -/
theorem depth_one_reports_direct_deps (f : Identity → Option Manifest)
    (st : ScanState) (i : Nat)
    (hfresh : ∀ a ∈ st.actions,
      a.scanned = false ∧ a.dependencies = [] ∧ a.actionYaml = none)
    (hi : i < st.actions.length) :
    (Action.scanDependencies f 1 0 st i).1
      = match f (st.identOf i) with
        | none => []
        | some m => directUses m := by
  have hnode : st.node? i = some st.actions[i] := by
    unfold ScanState.node?
    rw [List.get?_eq_getElem?, List.getElem?_eq_getElem hi]
  obtain ⟨hsc, hdeps, hyaml⟩ := hfresh _ (st.actions.getElem_mem hi)
  have hscanned : st.getScanned i = false := by
    unfold ScanState.getScanned
    rw [hnode]
    simpa using hsc
  have hall : ∀ k, st.depsOf k = [] := by
    intro k
    rcases Nat.lt_or_ge k st.actions.length with hk | hk
    · have hnodek : st.node? k = some st.actions[k] := by
        unfold ScanState.node?
        rw [List.get?_eq_getElem?, List.getElem?_eq_getElem hk]
      obtain ⟨-, hd, -⟩ := hfresh _ (st.actions.getElem_mem hk)
      unfold ScanState.depsOf
      rw [hnodek]
      simpa using hd
    · exact ScanState.depsOf_oob st k hk
  show (Action.scanLevel f (Action.scanFuel f 0) 0 st i).1 = _
  unfold Action.scanLevel
  rw [if_neg (by simp [hscanned])]
  have hval : (Action.getActionYaml f (st.setScanned i) i).1
      = f (st.identOf i) := by
    rw [Action.getActionYaml_val_of_undefined f (st.setScanned i) i
      { st.actions[i] with scanned := true }
      (ScanState.setScanned_node? st i hi) (by simpa using hyaml)]
    show f (st.actions[i]).ident = _
    rw [ScanState.identOf_of_getElem st i hi]
  show (match (Action.getActionYaml f (st.setScanned i) i).1 with
        | none => ((Action.getActionYaml f (st.setScanned i) i).2.depsOf i,
                   (Action.getActionYaml f (st.setScanned i) i).2)
        | some m =>
          ((Action.scanStepsLoop (Action.scanFuel f 0 (0 + 1))
              (Action.getActionYaml f (st.setScanned i) i).2 i
              (actionSteps m)).depsOf i,
           Action.scanStepsLoop (Action.scanFuel f 0 (0 + 1))
              (Action.getActionYaml f (st.setScanned i) i).2 i
              (actionSteps m))).1 = _
  rw [hval]
  rcases hfv : f (st.identOf i) with _ | m
  · show (Action.getActionYaml f (st.setScanned i) i).2.depsOf i = []
    rw [Action.getActionYaml_depsOf, ScanState.setScanned_depsOf]
    exact hall i
  · have hi2 : i < (Action.getActionYaml f
        (st.setScanned i) i).2.actions.length := by
      rw [Action.getActionYaml_length, ScanState.setScanned_length]
      exact hi
    have hoth2 : ∀ k, k ≠ i →
        (Action.getActionYaml f (st.setScanned i) i).2.depsOf k = [] := by
      intro k _
      rw [Action.getActionYaml_depsOf, ScanState.setScanned_depsOf]
      exact hall k
    obtain ⟨hl1, -, -⟩ := depth_one_loop f i (actionSteps m)
      (Action.getActionYaml f (st.setScanned i) i).2 hi2 hoth2
    show (Action.scanStepsLoop (Action.scanFuel f 0 (0 + 1))
        (Action.getActionYaml f (st.setScanned i) i).2 i
        (actionSteps m)).depsOf i = directUses m
    rw [hl1]
    rw [Action.getActionYaml_depsOf, ScanState.setScanned_depsOf, hall i]
    rfl

/-- Witness for `depth_one_reports_direct_deps`: the fresh single-node cache
holding `org/a@v1`, whose manifest declares one dependency. -/
theorem depth_one_reports_direct_deps_witness :
    (∀ a ∈ cycStart.actions,
      a.scanned = false ∧ a.dependencies = [] ∧ a.actionYaml = none) ∧
    0 < cycStart.actions.length ∧
    (Action.scanDependencies abFetcher 1 0 cycStart 0).1
      = match abFetcher (cycStart.identOf 0) with
        | none => []
        | some m => directUses m := by
  refine ⟨?_, by decide, ?_⟩
  · intro a ha
    have ha2 : a ∈ [Action.mk0 "org" "a" "v1" ""] := ha
    rcases List.mem_singleton.mp ha2 with rfl
    exact ⟨rfl, rfl, rfl⟩
  · exact depth_one_reports_direct_deps abFetcher cycStart 0
      (by
        intro a ha
        have ha2 : a ∈ [Action.mk0 "org" "a" "v1" ""] := ha
        rcases List.mem_singleton.mp ha2 with rfl
        exact ⟨rfl, rfl, rfl⟩)
      (by decide)

/-! ## C2 — each manifest fetched at most once -/

lemma set_getElem_eq_self {α : Type} (l : List α) (i : Nat)
    (h : i < l.length) : l.set i l[i] = l := by
  apply List.ext_getElem?
  intro k
  by_cases hk : k = i
  · subst hk
    rw [List.getElem?_set_self h, List.getElem?_eq_getElem h]
  · rw [List.getElem?_set_ne (fun he => hk he.symm)]

lemma goodState_initState : goodState initState := by
  refine ⟨List.nodup_nil, ?_, ?_, ?_⟩
  · intro k a h
    cases h
  · intro id _
    rfl
  · intro id
    show List.count id [] ≤ 1
    simp

lemma identsOf_set_of_ident_eq (st : ScanState) (lg : List Identity) (i : Nat)
    (a' : Action) (hi : i < st.actions.length)
    (hid : a'.ident = (st.actions[i]).ident) :
    identsOf ⟨st.actions.set i a', lg⟩ = identsOf st := by
  show (st.actions.set i a').map Action.ident = st.actions.map Action.ident
  rw [List.map_set, hid]
  apply List.ext_getElem?
  intro k
  by_cases hk : k = i
  · subst hk
    rw [List.getElem?_set_self (by simpa using hi)]
    rw [List.getElem?_map, List.getElem?_eq_getElem hi]
    rfl
  · rw [List.getElem?_set_ne (fun he => hk he.symm)]

lemma node?_set (st : ScanState) (lg : List Identity) (i : Nat) (a' : Action)
    (hi : i < st.actions.length) (k : Nat) :
    (⟨st.actions.set i a', lg⟩ : ScanState).node? k
      = if k = i then some a' else st.node? k := by
  by_cases hk : k = i
  · subst hk
    rw [if_pos rfl]
    show (st.actions.set k a').get? k = _
    rw [List.get?_eq_getElem?, List.getElem?_set_self hi]
  · rw [if_neg hk]
    show (st.actions.set i a').get? k = st.actions.get? k
    rw [List.get?_eq_getElem?, List.get?_eq_getElem?,
      List.getElem?_set_ne (fun he => hk he.symm)]

lemma goodState_modify_inert (st : ScanState) (i : Nat) (a' : Action)
    (hi : i < st.actions.length)
    (hid : a'.ident = (st.actions[i]).ident)
    (hy : a'.actionYaml = (st.actions[i]).actionYaml)
    (hg : goodState st) :
    goodState ⟨st.actions.set i a', st.fetchLog⟩ := by
  obtain ⟨h1, h2, h3, h4⟩ := hg
  have hids := identsOf_set_of_ident_eq st st.fetchLog i a' hi hid
  refine ⟨by rwa [hids], ?_, ?_, h4⟩
  · intro k a hk hyy
    rw [node?_set st st.fetchLog i a' hi k] at hk
    by_cases hki : k = i
    · rw [if_pos hki] at hk
      cases hk
      rw [hid]
      apply h2 i st.actions[i]
      · show st.actions.get? i = _
        rw [List.get?_eq_getElem?, List.getElem?_eq_getElem hi]
      · rw [← hy]
        exact hyy
    · rw [if_neg hki] at hk
      exact h2 k a hk hyy
  · intro id hid2
    rw [hids] at hid2
    exact h3 id hid2

lemma goodState_setScanned (st : ScanState) (i : Nat) (hg : goodState st) :
    goodState (st.setScanned i) := by
  unfold ScanState.setScanned ScanState.modifyNode
  rcases h : st.actions.get? i with _ | a
  · exact hg
  · have hi : i < st.actions.length := by
      rw [List.get?_eq_getElem?] at h
      exact (List.getElem?_eq_some.mp h).1
    have ha : a = st.actions[i] := by
      rw [List.get?_eq_getElem?, List.getElem?_eq_getElem hi] at h
      exact (Option.some.inj h).symm
    exact goodState_modify_inert st i _ hi (by rw [ha]; rfl) (by rw [ha]) hg

lemma goodState_addDep (st : ScanState) (i : Nat) (d : Identity)
    (hg : goodState st) : goodState (st.addDep i d) := by
  unfold ScanState.addDep ScanState.modifyNode
  rcases h : st.actions.get? i with _ | a
  · exact hg
  · have hi : i < st.actions.length := by
      rw [List.get?_eq_getElem?] at h
      exact (List.getElem?_eq_some.mp h).1
    have ha : a = st.actions[i] := by
      rw [List.get?_eq_getElem?, List.getElem?_eq_getElem hi] at h
      exact (Option.some.inj h).symm
    by_cases hd : d ∈ a.dependencies
    · simp only [if_pos hd]
      have : st.actions.set i a = st.actions := by
        rw [ha]
        exact set_getElem_eq_self _ i hi
      rw [this]
      exact hg
    · simp only [if_neg hd]
      exact goodState_modify_inert st i _ hi (by rw [ha]; rfl) (by rw [ha]) hg

lemma goodState_findOrCreate (st : ScanState) (o r rf sp : String)
    (hg : goodState st) :
    goodState (ActionCache.findOrCreate st o r rf sp).2 := by
  obtain ⟨h1, h2, h3, h4⟩ := hg
  rcases hf : ActionCache.find st o r rf sp with _ | i
  · rw [ActionCache.findOrCreate_of_find_none st o r rf sp hf]
    have hmem := (ActionCache.find_eq_none_iff st o r rf sp).mp hf
    have hids : identsOf ⟨st.actions ++ [Action.mk0 o r rf sp], st.fetchLog⟩
        = identsOf st ++ [(⟨o, r, rf, sp⟩ : Identity)] := by
      show (st.actions ++ [Action.mk0 o r rf sp]).map Action.ident = _
      rw [List.map_append]
      rfl
    refine ⟨?_, ?_, ?_, h4⟩
    · rw [hids, List.nodup_append]
      refine ⟨h1, List.nodup_singleton _, ?_⟩
      intro x hx hx1
      rw [List.mem_singleton] at hx1
      subst hx1
      exact hmem hx
    · intro k a hk hyy
      show List.count a.ident st.fetchLog = 0
      have hk2 : (st.actions ++ [Action.mk0 o r rf sp])[k]? = some a := by
        rw [← List.get?_eq_getElem?]
        exact hk
      rw [List.getElem?_append] at hk2
      by_cases hkl : k < st.actions.length
      · rw [if_pos hkl] at hk2
        refine h2 k a ?_ hyy
        show st.actions.get? k = some a
        rw [List.get?_eq_getElem?]
        exact hk2
      · rw [if_neg hkl] at hk2
        rcases Nat.lt_or_ge (k - st.actions.length) 1 with hk1 | hk1
        · have hk0 : k - st.actions.length = 0 := by omega
          rw [hk0] at hk2
          cases hk2
          show List.count (Action.mk0 o r rf sp).ident st.fetchLog = 0
          rw [Action.ident_mk0]
          exact h3 _ hmem
        · rw [List.getElem?_eq_none (by simpa using hk1)] at hk2
          cases hk2
    · intro id hid2
      rw [hids] at hid2
      exact h3 id (fun hmem2 => hid2 (List.mem_append_left _ hmem2))
  · rw [ActionCache.findOrCreate_of_find_some st o r rf sp i hf]
    exact ⟨h1, h2, h3, h4⟩

lemma ident_ne_of_node?_ne (st : ScanState) (h1 : (identsOf st).Nodup)
    (k i : Nat) (a b : Action) (hk : st.node? k = some a)
    (hi : st.node? i = some b) (hne : k ≠ i) : a.ident ≠ b.ident := by
  have hkl := ScanState.node?_lt_length st k a hk
  have hil := ScanState.node?_lt_length st i b hi
  have hae : a = st.actions[k] := by
    unfold ScanState.node? at hk
    rw [List.get?_eq_getElem?, List.getElem?_eq_getElem hkl] at hk
    exact (Option.some.inj hk).symm
  have hbe : b = st.actions[i] := by
    unfold ScanState.node? at hi
    rw [List.get?_eq_getElem?, List.getElem?_eq_getElem hil] at hi
    exact (Option.some.inj hi).symm
  intro heq
  apply hne
  have hkm : k < (identsOf st).length := by
    show k < (st.actions.map Action.ident).length
    simpa using hkl
  have him : i < (identsOf st).length := by
    show i < (st.actions.map Action.ident).length
    simpa using hil
  have : (identsOf st).get ⟨k, hkm⟩ = (identsOf st).get ⟨i, him⟩ := by
    show (st.actions.map Action.ident)[k] = (st.actions.map Action.ident)[i]
    rw [List.getElem_map, List.getElem_map]
    rw [← hae, ← hbe]
    exact heq
  exact (List.Nodup.getElem_inj_iff h1).mp this

lemma count_singleton_of_ne (x id : Identity) (h : x ≠ id) :
    List.count id [x] = 0 := by
  simp [List.count_singleton, h]

lemma goodState_getActionYaml (f : Identity → Option Manifest)
    (st : ScanState) (i : Nat) (hg : goodState st) :
    goodState (Action.getActionYaml f st i).2 := by
  rcases h : st.node? i with _ | a
  · rw [Action.getActionYaml_of_oob f st i h]
    exact hg
  · rcases hy : a.actionYaml with _ | v
    · rw [Action.getActionYaml_of_undefined f st i a h hy]
      obtain ⟨h1, h2, h3, h4⟩ := hg
      have hi := ScanState.node?_lt_length st i a h
      have ha : a = st.actions[i] := by
        unfold ScanState.node? at h
        rw [List.get?_eq_getElem?, List.getElem?_eq_getElem hi] at h
        exact (Option.some.inj h).symm
      have hh : st.node? i = some a := by
        unfold ScanState.node?
        rw [List.get?_eq_getElem?, List.getElem?_eq_getElem hi, ha]
      have hids : identsOf ⟨st.actions.set i
            { a with actionYaml := some (f a.ident) },
            st.fetchLog ++ [a.ident]⟩ = identsOf st :=
        identsOf_set_of_ident_eq st _ i _ hi (by rw [ha]; rfl)
      have hmem : a.ident ∈ identsOf st := by
        rw [ha]
        exact List.mem_map.mpr ⟨st.actions[i], st.actions.getElem_mem hi, rfl⟩
      have hcnt0 : st.fetchLog.count a.ident = 0 := h2 i a hh hy
      refine ⟨by rwa [hids], ?_, ?_, ?_⟩
      · intro k b hk hyb
        show List.count b.ident (st.fetchLog ++ [a.ident]) = 0
        rw [node?_set st _ i _ hi k] at hk
        by_cases hki : k = i
        · rw [if_pos hki] at hk
          cases hk
          cases hyb
        · rw [if_neg hki] at hk
          have hbne : b.ident ≠ a.ident :=
            ident_ne_of_node?_ne st h1 k i b a hk hh hki
          rw [List.count_append, h2 k b hk hyb,
            count_singleton_of_ne a.ident b.ident (fun he => hbne he.symm)]
      · intro id hid
        rw [hids] at hid
        show List.count id (st.fetchLog ++ [a.ident]) = 0
        rw [List.count_append, h3 id hid,
          count_singleton_of_ne a.ident id (fun he => hid (he ▸ hmem))]
      · intro id
        show List.count id (st.fetchLog ++ [a.ident]) ≤ 1
        rw [List.count_append]
        by_cases hida : id = a.ident
        · subst hida
          rw [hcnt0]
          simp [List.count_singleton]
        · rw [count_singleton_of_ne a.ident id (fun he => hida he.symm)]
          simpa using h4 id
    · rw [Action.getActionYaml_of_cached f st i a v h hy]
      exact hg

lemma goodState_foldl_addDep (i : Nat) :
    ∀ (L : List Identity) (st : ScanState), goodState st →
      goodState (L.foldl (fun s d => s.addDep i d) st) := by
  intro L
  induction L with
  | nil => intro st hg; exact hg
  | cons d rest ih =>
    intro st hg
    exact ih (st.addDep i d) (goodState_addDep st i d hg)

lemma Action.stepTry_of_parse_none
    (recur : ScanState → Nat → List Identity × ScanState)
    (st : ScanState) (i : Nat) (u : String) (hm : matchActionName u = none) :
    Action.stepTry recur st i u
      = .error ("Invalid action reference: " ++ u) := by
  unfold Action.stepTry Action.fromUsesString
  rw [hm]

lemma Action.stepTry_of_parse_some
    (recur : ScanState → Nat → List Identity × ScanState)
    (st : ScanState) (i : Nat) (u : String) (id : Identity)
    (hm : matchActionName u = some id) :
    Action.stepTry recur st i u
      = .ok ((recur ((ActionCache.findOrCreate st id.owner id.repo id.ref
              id.subPath).2.addDep i
              ((ActionCache.findOrCreate st id.owner id.repo id.ref
                id.subPath).2.identOf
               (ActionCache.findOrCreate st id.owner id.repo id.ref
                id.subPath).1))
            (ActionCache.findOrCreate st id.owner id.repo id.ref
              id.subPath).1).1.foldl (fun s d => s.addDep i d)
          (recur ((ActionCache.findOrCreate st id.owner id.repo id.ref
              id.subPath).2.addDep i
              ((ActionCache.findOrCreate st id.owner id.repo id.ref
                id.subPath).2.identOf
               (ActionCache.findOrCreate st id.owner id.repo id.ref
                id.subPath).1))
            (ActionCache.findOrCreate st id.owner id.repo id.ref
              id.subPath).1).2) := by
  unfold Action.stepTry Action.fromUsesString
  rw [hm]

lemma goodState_scanStepsLoop
    (recur : ScanState → Nat → List Identity × ScanState)
    (hrec : ∀ st j, goodState st → goodState (recur st j).2) :
    ∀ (steps : List Step) (st : ScanState) (i : Nat), goodState st →
      goodState (Action.scanStepsLoop recur st i steps) := by
  intro steps
  induction steps with
  | nil => intro st i hg; exact hg
  | cons step rest ih =>
    intro st i hg
    rw [scanStepsLoop_cons]
    apply ih
    rcases hu : step.uses with _ | u
    · exact hg
    · show goodState (if u = "" then st
        else match Action.stepTry recur st i u with
             | .ok st2 => st2
             | .error _ => st)
      by_cases hne : u = ""
      · rw [if_pos hne]
        exact hg
      · rw [if_neg hne]
        rcases hm : matchActionName u with _ | id
        · rw [Action.stepTry_of_parse_none recur st i u hm]
          exact hg
        · rw [Action.stepTry_of_parse_some recur st i u id hm]
          exact goodState_foldl_addDep i _ _
            (hrec _ _ (goodState_addDep _ i _
              (goodState_findOrCreate st id.owner id.repo id.ref id.subPath
                hg)))

lemma goodState_scanFuel (f : Identity → Option Manifest) :
    ∀ (fuel cd : Nat) (st : ScanState) (i : Nat), goodState st →
      goodState (Action.scanFuel f fuel cd st i).2 := by
  intro fuel
  induction fuel with
  | zero => intro cd st i hg; exact hg
  | succ n ih =>
    intro cd st i hg
    show goodState (Action.scanLevel f (Action.scanFuel f n) cd st i).2
    unfold Action.scanLevel
    by_cases hsc : st.getScanned i
    · rw [if_pos hsc]
      exact hg
    · rw [if_neg hsc]
      have hg1 := goodState_getActionYaml f (st.setScanned i) i
        (goodState_setScanned st i hg)
      show goodState (match (Action.getActionYaml f (st.setScanned i) i).1 with
        | none => ((Action.getActionYaml f (st.setScanned i) i).2.depsOf i,
                   (Action.getActionYaml f (st.setScanned i) i).2)
        | some m =>
          ((Action.scanStepsLoop (Action.scanFuel f n (cd + 1))
              (Action.getActionYaml f (st.setScanned i) i).2 i
              (actionSteps m)).depsOf i,
           Action.scanStepsLoop (Action.scanFuel f n (cd + 1))
              (Action.getActionYaml f (st.setScanned i) i).2 i
              (actionSteps m))).2
      rcases hfv : (Action.getActionYaml f (st.setScanned i) i).1 with _ | m
      · exact hg1
      · exact goodState_scanStepsLoop (Action.scanFuel f n (cd + 1))
          (fun st' j hg' => ih (cd + 1) st' j hg') (actionSteps m) _ i hg1

lemma goodState_scanDependencies (f : Identity → Option Manifest)
    (md cd : Nat) (st : ScanState) (i : Nat) (hg : goodState st) :
    goodState (Action.scanDependencies f md cd st i).2 :=
  goodState_scanFuel f (md - cd) cd st i hg

lemma goodState_processRoots (md : Nat) (f : Identity → Option Manifest) :
    ∀ (refs : List String) (st : ScanState)
      (results : List (String × RecursiveActionScanner.RootResult)),
      goodState st →
      goodState (RecursiveActionScanner.processRoots md f refs st
        results).2 := by
  intro refs
  induction refs with
  | nil => intro st results hg; exact hg
  | cons r rest ih =>
    intro st results hg
    rcases hm : matchActionName r with _ | id
    · have hfe : Action.fromUsesString st r
          = .error ("Invalid action reference: " ++ r) := by
        unfold Action.fromUsesString
        rw [hm]
      have hred : RecursiveActionScanner.processRoots md f (r :: rest) st
            results
          = RecursiveActionScanner.processRoots md f rest st
            (upsert results r ⟨none, [],
              some ("Invalid action reference: " ++ r), 0⟩) := by
        conv_lhs => unfold RecursiveActionScanner.processRoots
        rw [hfe]
      rw [hred]
      exact ih st _ hg
    · have hfe : Action.fromUsesString st r
          = .ok (ActionCache.findOrCreate st id.owner id.repo id.ref
              id.subPath) := by
        unfold Action.fromUsesString
        rw [hm]
      have hred : RecursiveActionScanner.processRoots md f (r :: rest) st
            results
          = RecursiveActionScanner.processRoots md f rest
            (Action.scanDependencies f md 0
              (ActionCache.findOrCreate st id.owner id.repo id.ref
                id.subPath).2
              (ActionCache.findOrCreate st id.owner id.repo id.ref
                id.subPath).1).2
            (upsert results r
              ⟨some ((Action.scanDependencies f md 0
                  (ActionCache.findOrCreate st id.owner id.repo id.ref
                    id.subPath).2
                  (ActionCache.findOrCreate st id.owner id.repo id.ref
                    id.subPath).1).2.identOf
                  (ActionCache.findOrCreate st id.owner id.repo id.ref
                    id.subPath).1),
               (Action.scanDependencies f md 0
                  (ActionCache.findOrCreate st id.owner id.repo id.ref
                    id.subPath).2
                  (ActionCache.findOrCreate st id.owner id.repo id.ref
                    id.subPath).1).1,
               none,
               (Action.scanDependencies f md 0
                  (ActionCache.findOrCreate st id.owner id.repo id.ref
                    id.subPath).2
                  (ActionCache.findOrCreate st id.owner id.repo id.ref
                    id.subPath).1).1.length⟩) := by
        conv_lhs => unfold RecursiveActionScanner.processRoots
        rw [hfe]
      rw [hred]
      exact ih _ _ (goodState_scanDependencies f md 0 _ _
        (goodState_findOrCreate st id.owner id.repo id.ref id.subPath hg))

/-- C2: over a whole scan run every identity's manifest is fetched at most
once.  Concretely: (1) once a node's document slot is populated — including
the cached `null` for a missing manifest — `getActionYaml` returns the stored
value without touching the collaborator or the state; (2) once a node's
expanded flag is set, `scanDependencies` returns immediately without
fetching; (3) a whole `scanActionList` run from the initial state invokes the
manifest collaborator at most once per identity; and (4) in the two-root
scenario where `org/a@v1` and `org/b@v1` both declare `uses: org/c@v1`,
`org/c@v1` is fetched exactly once and appears exactly once in the global
unique list. -/
theorem manifest_fetched_at_most_once :
    (∀ (f : Identity → Option Manifest) (st : ScanState) (i : Nat)
       (a : Action) (v : Option Manifest),
       st.node? i = some a → a.actionYaml = some v →
       Action.getActionYaml f st i = (v, st)) ∧
    (∀ (f : Identity → Option Manifest) (md cd : Nat) (st : ScanState)
       (i : Nat), st.getScanned i = true →
       Action.scanDependencies f md cd st i = (st.depsOf i, st)) ∧
    (∀ (md : Nat) (f : Identity → Option Manifest) (refs : List String)
       (id : Identity),
       ((RecursiveActionScanner.scanActionList md f refs
         initState).2).fetchLog.count id ≤ 1) ∧
    (((RecursiveActionScanner.scanActionList 5 sharedFetcher
        ["org/a@v1", "org/b@v1"] initState).2).fetchLog.count cId = 1 ∧
     (((RecursiveActionScanner.scanActionList 5 sharedFetcher
        ["org/a@v1", "org/b@v1"] initState).1.allUniqueActions.map
          Prod.fst).count "org/c@v1") = 1) := by
  refine ⟨?_, ?_, ?_, by decide, by decide⟩
  · intro f st i a v h hy
    exact Action.getActionYaml_of_cached f st i a v h hy
  · intro f md cd st i h
    exact Action.scanFuel_of_scanned f (md - cd) cd st i h
  · intro md f refs id
    cases refs with
    | nil =>
      show List.count id ([] : List Identity) ≤ 1
      simp
    | cons r rest =>
      have hg := goodState_processRoots md f (r :: rest) initState []
        goodState_initState
      exact hg.2.2.2 id

/-- Witness for `manifest_fetched_at_most_once`: the cached-manifest return
and the expanded-flag cut-off evaluated on the post-cycle-scan state, where
both hold with concrete values. -/
theorem manifest_fetched_at_most_once_witness :
    Action.getActionYaml cycFetcher cycMid 0
      = (some (soleUses "org/b@v1"), cycMid) ∧
    Action.scanDependencies cycFetcher 5 0 cycMid 0
      = (cycMid.depsOf 0, cycMid) :=
  ⟨(manifest_fetched_at_most_once).1 cycFetcher cycMid 0
      ⟨"org", "a", "v1", "", [bId], true, some (some (soleUses "org/b@v1"))⟩
      (some (soleUses "org/b@v1")) rfl rfl,
   (manifest_fetched_at_most_once).2.1 cycFetcher 5 0 cycMid 0 rfl⟩

/-! ## C6 — reference parsing -/

lemma takeWhile_clean_prefix (p : Char → Bool) :
    ∀ (o : List Char) (x : Char) (rest : List Char),
      (∀ c ∈ o, p c = true) → p x = false →
      (o ++ x :: rest).takeWhile p = o ∧
      (o ++ x :: rest).dropWhile p = x :: rest := by
  intro o
  induction o with
  | nil =>
    intro x rest _ hx
    constructor
    · show (x :: rest).takeWhile p = []
      rw [List.takeWhile_cons, if_neg (by simp [hx])]
    · show (x :: rest).dropWhile p = x :: rest
      rw [List.dropWhile_cons, if_neg (by simp [hx])]
  | cons c o' ih =>
    intro x rest ho hx
    obtain ⟨ih1, ih2⟩ := ih x rest
      (fun c2 hc2 => ho c2 (List.mem_cons_of_mem c hc2)) hx
    constructor
    · show ((c :: (o' ++ x :: rest)).takeWhile p) = c :: o'
      rw [List.takeWhile_cons_of_pos (ho c (List.mem_cons_self c o')), ih1]
    · show ((c :: (o' ++ x :: rest)).dropWhile p) = x :: rest
      rw [List.dropWhile_cons, if_pos (by simp [ho c (List.mem_cons_self c o')]),
        ih2]

lemma takeWhile_all_append (p : Char → Bool) :
    ∀ (r w : List Char), (∀ c ∈ r, p c = true) →
      (r ++ w).takeWhile p = r ++ w.takeWhile p ∧
      (r ++ w).dropWhile p = w.dropWhile p := by
  intro r
  induction r with
  | nil => intro w _; exact ⟨rfl, rfl⟩
  | cons c r' ih =>
    intro w hr
    obtain ⟨ih1, ih2⟩ := ih w (fun c2 hc2 => hr c2 (List.mem_cons_of_mem c hc2))
    constructor
    · show ((c :: (r' ++ w)).takeWhile p) = c :: (r' ++ w.takeWhile p)
      rw [List.takeWhile_cons_of_pos (hr c (List.mem_cons_self c r')), ih1]
    · show ((c :: (r' ++ w)).dropWhile p) = w.dropWhile p
      rw [List.dropWhile_cons, if_pos (by simp [hr c (List.mem_cons_self c r')]),
        ih2]

lemma tryTail_isSome_iff (u : List Char) :
    (tryTail u).isSome = true ↔
      ∃ sp v, u = (if sp = [] then [] else '/' :: sp) ++ '@' :: v ∧
        (∀ c ∈ sp, c ≠ '@') ∧ refOk v = true := by
  constructor
  · intro h
    unfold tryTail at h
    split at h
    · next u2 =>
      dsimp only at h
      split at h
      · next v heq =>
        split at h
        · next hcond =>
          rw [Bool.and_eq_true] at hcond
          refine ⟨u2.takeWhile (· ≠ '@'), v, ?_, ?_, hcond.2⟩
          · have hne : ¬(u2.takeWhile (· ≠ '@') = []) := by
              intro he
              rw [he] at hcond
              simp at hcond
            rw [if_neg hne]
            have hw := List.takeWhile_append_dropWhile
              (fun c => decide (c ≠ '@')) u2
            rw [heq] at hw
            rw [List.cons_append, hw]
          · intro c2 hc2
            simpa using List.mem_takeWhile_imp hc2
        · cases h
      · cases h
    · next v =>
      split at h
      · next hr => exact ⟨[], v, by simp, by simp, hr⟩
      · cases h
    · cases h
  · rintro ⟨sp, v, he, hsp, hv⟩
    subst he
    by_cases hspe : sp = []
    · subst hspe
      show (tryTail ('@' :: v)).isSome = true
      show (if refOk v = true then
          some (([] : List Char), v) else none).isSome = true
      rw [if_pos hv]
      rfl
    · rw [if_neg hspe]
      show (tryTail ('/' :: (sp ++ '@' :: v))).isSome = true
      obtain ⟨ht, hd⟩ := takeWhile_clean_prefix (fun c => decide (c ≠ '@'))
        sp '@' v (fun c hc => by simpa using hsp c hc) (by simp)
      show ((match (sp ++ '@' :: v).dropWhile (· ≠ '@') with
          | '@' :: v2 =>
            if (!((sp ++ '@' :: v).takeWhile (· ≠ '@')).isEmpty && refOk v2)
                = true then
              some ((sp ++ '@' :: v).takeWhile (· ≠ '@'), v2)
            else none
          | _ => none) : Option (List Char × List Char)).isSome = true
      rw [ht, hd]
      show (if (!sp.isEmpty && refOk v) = true then some (sp, v)
        else none).isSome = true
      rw [if_pos (by simp [hspe, hv])]
      rfl

lemma goAction_isSome_iff :
    ∀ (actRev u : List Char),
      (goAction actRev u).isSome = true ↔
        ∃ a b, a ++ b = actRev.reverse ∧ a ≠ [] ∧
          (tryTail (b ++ u)).isSome = true := by
  intro actRev
  induction actRev with
  | nil =>
    intro u
    constructor
    · intro h
      cases h
    · rintro ⟨a, b, hab, ha, -⟩
      rw [List.reverse_nil] at hab
      exact absurd (List.append_eq_nil.mp hab).1 ha
  | cons c actRev ih =>
    intro u
    constructor
    · intro h
      unfold goAction at h
      split at h
      · next sub v heq =>
        refine ⟨(c :: actRev).reverse, [], by simp, by simp, ?_⟩
        rw [List.nil_append, heq]
        rfl
      · next heq =>
        obtain ⟨a, b, hab, ha, htt⟩ := (ih (c :: u)).mp h
        refine ⟨a, b ++ [c], ?_, ha, ?_⟩
        · rw [← List.append_assoc, hab, List.reverse_cons]
        · rwa [List.append_assoc, List.singleton_append]
    · rintro ⟨a, b, hab, ha, htt⟩
      unfold goAction
      split
      · rfl
      · next heq =>
        apply (ih (c :: u)).mpr
        rcases hb : b.reverse with _ | ⟨c2, t⟩
        · have hbe : b = [] := by
            rw [← List.reverse_reverse b, hb, List.reverse_nil]
          subst hbe
          rw [List.nil_append] at htt
          rw [heq] at htt
          cases htt
        · have hbv : b = t.reverse ++ [c2] := by
            rw [← List.reverse_reverse b, hb, List.reverse_cons]
          rw [hbv, List.reverse_cons, ← List.append_assoc] at hab
          obtain ⟨hab1, hab2⟩ := List.append_inj' hab rfl
          have hc2 : c2 = c := by
            injection hab2
          subst hc2
          refine ⟨a, t.reverse, hab1, ha, ?_⟩
          rw [hbv, List.append_assoc, List.singleton_append] at htt
          exact htt

lemma matchActionName_isSome_iff (raw : String) :
    (matchActionName raw).isSome = true ↔
      ∃ o r sp v, regexSplit raw.toList o r sp v := by
  constructor
  · intro h
    unfold matchActionName at h
    dsimp only at h
    split at h
    · next c0 org2 t heq1 heq2 =>
      split at h
      · next act sub v heq3 =>
        have hgo : (goAction (t.takeWhile (· ≠ '/')).reverse
            (t.dropWhile (· ≠ '/'))).isSome = true := by
          rw [heq3]
          rfl
        obtain ⟨a, b, hab, ha, htt⟩ := (goAction_isSome_iff _ _).mp hgo
        rw [List.reverse_reverse] at hab
        obtain ⟨sp, v2, hsplit, hsp, hv⟩ := (tryTail_isSome_iff _).mp htt
        refine ⟨c0 :: org2, a, sp, v2, ?_, by simp, ?_, ha, ?_, hsp, hv⟩
        · have hcs := List.takeWhile_append_dropWhile
            (fun c => decide (c ≠ '/')) raw.toList
          rw [heq1, heq2] at hcs
          rw [← hcs]
          congr 2
          rw [List.append_assoc, ← hsplit, ← List.append_assoc, hab]
          rw [List.takeWhile_append_dropWhile]
        · intro c2 hc2
          have := List.mem_takeWhile_imp (heq1 ▸ hc2)
          simpa using this
        · intro c2 hc2
          have hmem : c2 ∈ t.takeWhile (· ≠ '/') := by
            rw [← hab]
            exact List.mem_append_left b hc2
          simpa using List.mem_takeWhile_imp hmem
      · cases h
    · cases h
  · rintro ⟨o, r, sp, v, hcs, ho, hoc, hr, hrc, hsp, hv⟩
    unfold matchActionName
    have hcs2 : raw.toList
        = o ++ '/' :: (r ++ ((if sp = [] then [] else '/' :: sp) ++ '@' :: v)) := by
      rw [hcs, List.append_assoc]
    obtain ⟨ht, hd⟩ := takeWhile_clean_prefix (fun c => decide (c ≠ '/'))
      o '/' (r ++ ((if sp = [] then [] else '/' :: sp) ++ '@' :: v))
      (fun c hc => by simpa using hoc c hc) (by simp)
    rw [hcs2]
    dsimp only
    rw [ht, hd]
    obtain ⟨c0, o2, rfl⟩ : ∃ c0 o2, o = c0 :: o2 := by
      rcases o with _ | ⟨c0, o2⟩
      · exact absurd rfl ho
      · exact ⟨c0, o2, rfl⟩
    obtain ⟨htw, hdw⟩ := takeWhile_all_append (fun c => decide (c ≠ '/'))
      r ((if sp = [] then [] else '/' :: sp) ++ '@' :: v)
      (fun c hc => by simpa using hrc c hc)
    have hgo : (goAction
        (((r ++ ((if sp = [] then [] else '/' :: sp) ++ '@' :: v)).takeWhile
          (· ≠ '/')).reverse)
        ((r ++ ((if sp = [] then [] else '/' :: sp) ++ '@' :: v)).dropWhile
          (· ≠ '/'))).isSome = true := by
      apply (goAction_isSome_iff _ _).mpr
      refine ⟨r,
        ((if sp = [] then [] else '/' :: sp) ++ '@' :: v).takeWhile (· ≠ '/'),
        ?_, hr, ?_⟩
      · rw [List.reverse_reverse, htw]
      · rw [hdw, List.takeWhile_append_dropWhile]
        exact (tryTail_isSome_iff _).mpr ⟨sp, v, rfl, hsp, hv⟩
    obtain ⟨trip, htrip⟩ := Option.isSome_iff_exists.mp hgo
    show (match goAction
        (((r ++ ((if sp = [] then [] else '/' :: sp) ++ '@' :: v)).takeWhile
          (· ≠ '/')).reverse)
        ((r ++ ((if sp = [] then [] else '/' :: sp) ++ '@' :: v)).dropWhile
          (· ≠ '/')) with
      | some (act, sub, v2) =>
        some (⟨String.mk (c0 :: o2), String.mk act, String.mk v2,
          String.mk sub⟩ : Identity)
      | none => none).isSome = true
    rw [htrip]
    rcases trip with ⟨act, sub, v2⟩
    rfl

/-- C6 counterexample: `"a@b/c@v1"` does not have the claimed shape — any
owner segment would have to contain `@` — yet `ACTION_NAME_REGEX` accepts it,
yielding owner `"a@b"` (the `[^\/]+` classes of the regex exclude only `/`,
not `@`, and backtracking places the delimiter at the last viable `@`). -/
theorem reference_parse_shape_counterexample :
    matchActionName "a@b/c@v1" = some ⟨"a@b", "c", "v1", ""⟩ ∧
    claimShape "a@b/c@v1" = false ∧
    (matchActionName "a@b/c@v1").isSome = true := by
  exact ⟨rfl, rfl, rfl⟩

/-- C6 amended: parsing a raw reference succeeds exactly when the string has
the shape `owner/repo[/subPath]@revision` in which `owner` and `repo` are
each a non-empty segment containing no `/` (they may contain `@`), the
optional `subPath` is non-empty and contains no `@` (it may contain `/`),
and `revision` is a non-empty remainder containing no line terminator; with
several viable delimiters, greedy backtracking makes `repo` as long as
possible, so the last viable `@` wins.  On success `"actions/checkout@v4"`
yields `(owner="actions", repo="checkout", subPath="", revision="v4")`, and
on failure `fromUsesString` throws the `Invalid action reference` error. -/
theorem reference_parse_characterization (st : ScanState) (raw : String) :
    ((matchActionName raw).isSome = true ↔
      ∃ o r sp v, regexSplit raw.toList o r sp v) ∧
    (matchActionName raw = none →
      Action.fromUsesString st raw
        = .error ("Invalid action reference: " ++ raw)) ∧
    matchActionName "actions/checkout@v4"
      = some ⟨"actions", "checkout", "v4", ""⟩ := by
  refine ⟨matchActionName_isSome_iff raw, ?_, rfl⟩
  intro h
  unfold Action.fromUsesString
  rw [h]

/-- Witness for `reference_parse_characterization`: both directions of the
characterization and the failure branch evaluated on concrete strings. -/
theorem reference_parse_characterization_witness :
    ((matchActionName "a/b/x@y/z@w").isSome = true ↔
      ∃ o r sp v, regexSplit ("a/b/x@y/z@w" : String).toList o r sp v) ∧
    (matchActionName "not-a-valid-ref" = none →
      Action.fromUsesString initState "not-a-valid-ref"
        = .error "Invalid action reference: not-a-valid-ref") ∧
    (∃ o r sp v, regexSplit ("a/b/x@y/z@w" : String).toList o r sp v) := by
  refine ⟨(reference_parse_characterization initState "a/b/x@y/z@w").1,
    fun h => (reference_parse_characterization initState "not-a-valid-ref").2.1 h,
    ?_⟩
  exact (reference_parse_characterization initState "a/b/x@y/z@w").1.mp rfl

end RAS
